import Mathlib

/-!
Verification of the DeepTrace case-graph engine
(`src/deeptrace/commands/network.py`) against its specification.

The Python module projects relational case records into an undirected
NetworkX graph and runs analytic queries over it.  This file shallowly
embeds the module: Python strings become `List Char`, SQL rows become
structures, the NetworkX `Graph` becomes an insertion-ordered list of
nodes and edges with dict-update semantics, and each CLI command's
graph-level behaviour becomes a function returning an explicit outcome
type.  Library calls (`nx.shortest_path`, `nx.connected_components`,
`nx.bridges`, `nx.isolates`, …) are embedded by their documented
semantics: breadth-first reachability, component partition in node
order, and edges whose removal disconnects their endpoints.
-/

namespace DeepTrace

/-- Python strings are embedded as lists of characters. -/
abbrev Str := List Char

/-- The six node kinds; `node_type` strings in the source are
`"entity"`, `"evidence"`, `"event"`, `"hypothesis"`, `"suspect_pool"`,
`"source"`. -/
inductive NodeKind where
  | entity
  | evidence
  | event
  | hypothesis
  | suspect_pool
  | source
deriving DecidableEq, Repr

/-- A node key.  The source uses strings `f"entity:{id}"`,
`f"evidence:{id}"`, …; the pair `(kind, recordId)` is the same data. -/
abbrev Key := NodeKind × Nat

/-- Node attribute dict.  Every field is optional: a node auto-created
by `add_edge` (NetworkX behaviour) has an empty attribute dict.  A SQL
`NULL` attribute value and an absent key are conflated; the source only
ever reads attributes with `dict.get`, for which the two are
indistinguishable. -/
structure NodeData where
  label : Option Str := none
  node_type : Option Str := none
  entity_type : Option Str := none
  evidence_type : Option Str := none
  status : Option Str := none
  timestamp : Option Str := none
  tier : Option Str := none
  priority : Option Str := none
  confidence : Option Str := none
  source_type : Option Str := none
  db_id : Option Nat := none
deriving DecidableEq, Repr

/-- The empty attribute dict (what `G.add_edge` gives an auto-created
endpoint node). -/
def emptyNodeData : NodeData := {}

/-- Edge attribute dict (union of the keys the builder ever passes). -/
structure EdgeData where
  edge_type : Option Str := none
  relationship_type : Option Str := none
  strength : Option Str := none
  confirmed : Option Bool := none
  consistency : Option Str := none
  diagnostic_weight : Option Str := none
deriving DecidableEq, Repr

/-- `old.update(new)` on one optional dict entry: a key present in the
new dict overwrites, an absent key leaves the old value. -/
def updOpt {α : Type} (old new : Option α) : Option α :=
  match new with
  | some v => some v
  | none => old

/-- NetworkX merges attribute dicts when `add_edge` hits an existing
edge: `G.adj[u][v].update(attrs)`. -/
def updEdgeData (old new : EdgeData) : EdgeData :=
  { edge_type := updOpt old.edge_type new.edge_type
    relationship_type := updOpt old.relationship_type new.relationship_type
    strength := updOpt old.strength new.strength
    confirmed := updOpt old.confirmed new.confirmed
    consistency := updOpt old.consistency new.consistency
    diagnostic_weight := updOpt old.diagnostic_weight new.diagnostic_weight }

/-- The NetworkX `Graph` object: insertion-ordered node dict and, for
the edges, the set of stored unordered pairs with their attribute dict
(at most one entry per unordered pair, in first-insertion orientation
and order). -/
structure Graph where
  nodes : List (Key × NodeData)
  edges : List (Key × Key × EdgeData)
deriving DecidableEq, Repr

/-- `k in G`. -/
def hasNode (G : Graph) (k : Key) : Bool :=
  G.nodes.any (fun p => p.1 = k)

/-- Python-dict write: an existing key keeps its position and gets the
new value, a new key is appended. -/
def setNode : List (Key × NodeData) → Key → NodeData → List (Key × NodeData)
  | [], k, d => [(k, d)]
  | p :: ps, k, d => if p.1 = k then (k, d) :: ps else p :: setNode ps k d

/-- `G.add_node(k, **attrs)`.  The builder always passes the full
attribute set for the kind, so the NetworkX attr-dict merge coincides
with replacement. -/
def add_node (G : Graph) (k : Key) (d : NodeData) : Graph :=
  ⟨setNode G.nodes k d, G.edges⟩

/-- `add_edge` auto-creates a missing endpoint with an empty attribute
dict (NetworkX behaviour), appended at the end of the node order. -/
def ensureNode (G : Graph) (k : Key) : Graph :=
  if hasNode G k then G else ⟨G.nodes ++ [(k, emptyNodeData)], G.edges⟩

/-- Store an edge: an existing entry for the same unordered pair keeps
its position and orientation and has its attribute dict merged
(`dict.update`); a new pair is appended. -/
def setEdge : List (Key × Key × EdgeData) → Key → Key → EdgeData →
    List (Key × Key × EdgeData)
  | [], a, b, d => [(a, b, d)]
  | e :: es, a, b, d =>
    if (e.1 = a ∧ e.2.1 = b) ∨ (e.1 = b ∧ e.2.1 = a) then
      (e.1, e.2.1, updEdgeData e.2.2 d) :: es
    else
      e :: setEdge es a b d

/-- `G.add_edge(a, b, **attrs)`. -/
def add_edge (G : Graph) (a b : Key) (d : EdgeData) : Graph :=
  let G1 := ensureNode (ensureNode G a) b
  ⟨G1.nodes, setEdge G1.edges a b d⟩

/- ---------------------------------------------------------------
Record Source rows (the `db.fetchall` results consumed by
`_build_graph`).  Nullable foreign keys are `Option Nat`; opaque SQL
scalar values that the engine only passes through are `Option Str`.
`confirmed` is embedded as the truthiness `bool(row["confirmed"])`
already applied.
--------------------------------------------------------------- -/

structure EntityRow where
  id : Nat
  name : Str
  entity_type : Str
  confidence : Option Str := none
  canonical_id : Option Nat := none
  source_id : Option Nat := none
deriving DecidableEq, Repr

structure EvidenceRow where
  id : Nat
  name : Str
  evidence_type : Str
  status : Str
  source_id : Option Nat := none
deriving DecidableEq, Repr

structure EventRow where
  id : Nat
  description : Str
  timestamp_start : Str
  confidence : Option Str := none
  source_id : Option Nat := none
deriving DecidableEq, Repr

structure HypothesisRow where
  id : Nat
  description : Str
  tier : Option Str := none
deriving DecidableEq, Repr

structure SuspectPoolRow where
  id : Nat
  category : Str
  priority : Option Str := none
deriving DecidableEq, Repr

structure SourceRow where
  id : Nat
  source_type : Str
deriving DecidableEq, Repr

structure RelationshipRow where
  entity_a_id : Nat
  entity_b_id : Nat
  relationship_type : Option Str := none
  strength : Option Str := none
  confirmed : Bool := false
deriving DecidableEq, Repr

structure AchRow where
  hypothesis_id : Nat
  evidence_id : Nat
  consistency : Option Str := none
  diagnostic_weight : Option Str := none
deriving DecidableEq, Repr

/-- One full read of the Record Source.  The `events` list is assumed
to arrive already ordered by `timestamp_start` (the source query says
`ORDER BY timestamp_start`). -/
structure Records where
  entities : List EntityRow := []
  evidence_items : List EvidenceRow := []
  events : List EventRow := []
  hypotheses : List HypothesisRow := []
  suspect_pools : List SuspectPoolRow := []
  sources : List SourceRow := []
  relationships : List RelationshipRow := []
  hypothesis_evidence_scores : List AchRow := []
deriving Repr

/-- `_truncate(text, length)` from the source:
`(text[:length] + "...") if len(text) > length else text`.
The Python default for `length` is 60; call sites here always pass the
budget explicitly. -/
def _truncate (text : Str) (length : Nat) : Str :=
  if length < text.length then text.take length ++ "...".data else text

/-- Node dict written for an entity row. -/
def entityNode (row : EntityRow) : NodeData :=
  { label := some row.name
    node_type := some "entity".data
    entity_type := some row.entity_type
    confidence := row.confidence
    db_id := some row.id }

/-- Node dict written for an evidence row. -/
def evidenceNode (row : EvidenceRow) : NodeData :=
  { label := some row.name
    node_type := some "evidence".data
    evidence_type := some row.evidence_type
    status := some row.status
    db_id := some row.id }

/-- Node dict written for an event row (label truncated to 60). -/
def eventNode (row : EventRow) : NodeData :=
  { label := some (_truncate row.description 60)
    node_type := some "event".data
    timestamp := some row.timestamp_start
    confidence := row.confidence
    db_id := some row.id }

/-- Node dict written for a hypothesis row (label truncated to 60). -/
def hypothesisNode (row : HypothesisRow) : NodeData :=
  { label := some (_truncate row.description 60)
    node_type := some "hypothesis".data
    tier := row.tier
    db_id := some row.id }

/-- Node dict written for a suspect pool row. -/
def suspectPoolNode (row : SuspectPoolRow) : NodeData :=
  { label := some row.category
    node_type := some "suspect_pool".data
    priority := row.priority
    db_id := some row.id }

/-- Node dict written for a source row; label is
`f"Source {row['id']} ({row['source_type']})"`. -/
def sourceNode (row : SourceRow) : NodeData :=
  { label := some ("Source ".data ++ Nat.toDigits 10 row.id ++
      " (".data ++ row.source_type ++ ")".data)
    node_type := some "source".data
    source_type := some row.source_type
    db_id := some row.id }

/-- `for row in db.fetchall("SELECT * FROM entities"): G.add_node(...)` -/
def addEntityNodes (rows : List EntityRow) (G : Graph) : Graph :=
  rows.foldl (fun G row => add_node G (NodeKind.entity, row.id) (entityNode row)) G

/-- `for row in db.fetchall("SELECT * FROM evidence_items"): G.add_node(...)` -/
def addEvidenceNodes (rows : List EvidenceRow) (G : Graph) : Graph :=
  rows.foldl (fun G row => add_node G (NodeKind.evidence, row.id) (evidenceNode row)) G

/-- `for row in db.fetchall("SELECT * FROM events ORDER BY timestamp_start"): ...` -/
def addEventNodes (rows : List EventRow) (G : Graph) : Graph :=
  rows.foldl (fun G row => add_node G (NodeKind.event, row.id) (eventNode row)) G

/-- `for row in db.fetchall("SELECT * FROM hypotheses"): G.add_node(...)` -/
def addHypothesisNodes (rows : List HypothesisRow) (G : Graph) : Graph :=
  rows.foldl (fun G row => add_node G (NodeKind.hypothesis, row.id) (hypothesisNode row)) G

/-- `for row in db.fetchall("SELECT * FROM suspect_pools"): G.add_node(...)` -/
def addSuspectPoolNodes (rows : List SuspectPoolRow) (G : Graph) : Graph :=
  rows.foldl (fun G row => add_node G (NodeKind.suspect_pool, row.id) (suspectPoolNode row)) G

/-- `for row in db.fetchall("SELECT * FROM sources"): G.add_node(...)` -/
def addSourceNodes (rows : List SourceRow) (G : Graph) : Graph :=
  rows.foldl (fun G row => add_node G (NodeKind.source, row.id) (sourceNode row)) G

/-- Edge dict for an explicit relationship row. -/
def relationshipEdge (row : RelationshipRow) : EdgeData :=
  { edge_type := some "relationship".data
    relationship_type := row.relationship_type
    strength := row.strength
    confirmed := some row.confirmed }

/-- Edge dict for an ACH score row. -/
def achEdge (row : AchRow) : EdgeData :=
  { edge_type := some "ach_score".data
    consistency := row.consistency
    diagnostic_weight := row.diagnostic_weight }

/-- Edge dict `edge_type="alias"`. -/
def aliasEdge : EdgeData := { edge_type := some "alias".data }

/-- Edge dict `edge_type="sourced_from"`. -/
def sourcedFromEdge : EdgeData := { edge_type := some "sourced_from".data }

/-- Explicit relationships between entities: the edge is added only
`if G.has_node(a) and G.has_node(b)`. -/
def addRelationshipEdges (rows : List RelationshipRow) (G : Graph) : Graph :=
  rows.foldl (fun G row =>
    let a : Key := (NodeKind.entity, row.entity_a_id)
    let b : Key := (NodeKind.entity, row.entity_b_id)
    if hasNode G a && hasNode G b then add_edge G a b (relationshipEdge row)
    else G) G

/-- Entity → canonical entity (alias links); the query filters
`WHERE canonical_id IS NOT NULL`, and the edge is guarded by
`has_node` on both endpoints. -/
def addAliasEdges (rows : List EntityRow) (G : Graph) : Graph :=
  rows.foldl (fun G row =>
    match row.canonical_id with
    | none => G
    | some cid =>
      let a : Key := (NodeKind.entity, row.id)
      let b : Key := (NodeKind.entity, cid)
      if hasNode G a && hasNode G b then add_edge G a b aliasEdge
      else G) G

/-- Evidence → source.  Exactly as in the source, this loop has NO
`has_node` guard: a dangling `source_id` makes `add_edge` auto-create
the missing source node. -/
def addEvidenceSourceEdges (rows : List EvidenceRow) (G : Graph) : Graph :=
  rows.foldl (fun G row =>
    match row.source_id with
    | none => G
    | some sid =>
      add_edge G (NodeKind.evidence, row.id) (NodeKind.source, sid) sourcedFromEdge) G

/-- Event → source, guarded by `has_node` on both endpoints. -/
def addEventSourceEdges (rows : List EventRow) (G : Graph) : Graph :=
  rows.foldl (fun G row =>
    match row.source_id with
    | none => G
    | some sid =>
      let ev : Key := (NodeKind.event, row.id)
      let src : Key := (NodeKind.source, sid)
      if hasNode G ev && hasNode G src then add_edge G ev src sourcedFromEdge
      else G) G

/-- Entity → source, guarded by `has_node` on both endpoints. -/
def addEntitySourceEdges (rows : List EntityRow) (G : Graph) : Graph :=
  rows.foldl (fun G row =>
    match row.source_id with
    | none => G
    | some sid =>
      let ent : Key := (NodeKind.entity, row.id)
      let src : Key := (NodeKind.source, sid)
      if hasNode G ent && hasNode G src then add_edge G ent src sourcedFromEdge
      else G) G

/-- Hypothesis ↔ evidence (ACH matrix), guarded by `has_node` on both
endpoints. -/
def addAchEdges (rows : List AchRow) (G : Graph) : Graph :=
  rows.foldl (fun G row =>
    let h : Key := (NodeKind.hypothesis, row.hypothesis_id)
    let e : Key := (NodeKind.evidence, row.evidence_id)
    if hasNode G h && hasNode G e then add_edge G h e (achEdge row)
    else G) G

/-- `_build_graph(db)`: node phase over the six kinds in source order,
then edge phase over the four edge kinds, in source order. -/
def _build_graph (r : Records) : Graph :=
  addAchEdges r.hypothesis_evidence_scores
    (addEntitySourceEdges r.entities
      (addEventSourceEdges r.events
        (addEvidenceSourceEdges r.evidence_items
          (addAliasEdges r.entities
            (addRelationshipEdges r.relationships
              (addSourceNodes r.sources
                (addSuspectPoolNodes r.suspect_pools
                  (addHypothesisNodes r.hypotheses
                    (addEventNodes r.events
                      (addEvidenceNodes r.evidence_items
                        (addEntityNodes r.entities ⟨[], []⟩)))))))))))

/-- The list of node keys in construction order. -/
def nodeKeys (G : Graph) : List Key :=
  G.nodes.map Prod.fst

/-- Two keys are adjacent when some stored edge joins them (in either
orientation). -/
def Adj (G : Graph) (u v : Key) : Prop :=
  ∃ e ∈ G.edges, (e.1 = u ∧ e.2.1 = v) ∨ (e.1 = v ∧ e.2.1 = u)

instance (G : Graph) (u v : Key) : Decidable (Adj G u v) := by
  unfold Adj
  infer_instance

/-- The neighbour list of a key (`G.neighbors`). -/
def nbrs (G : Graph) (k : Key) : List Key :=
  G.edges.filterMap (fun e =>
    if e.1 = k then some e.2.1 else if e.2.1 = k then some e.1 else none)

/-- `G.degree(k)`: incident edge count, a self-loop counting twice
(NetworkX convention). -/
def degree (G : Graph) (k : Key) : Nat :=
  (G.edges.filter (fun e => e.1 = k || e.2.1 = k)).length +
    (G.edges.filter (fun e => e.1 = k && e.2.1 = k)).length

/-- One breadth-first expansion step: a set together with all its
neighbours. -/
def expand (G : Graph) (s : Finset Key) : Finset Key :=
  s ∪ s.biUnion (fun k => (nbrs G k).toFinset)

/-- The breadth-first ball: all keys reachable from `a` by a walk of at
most `n` edges. -/
def reachN (G : Graph) : Nat → Key → Finset Key
  | 0, a => {a}
  | n + 1, a => expand G (reachN G n a)

/-- Everything reachable from `a`: the breadth-first search saturates
within `|nodes|` expansion steps. -/
def closure (G : Graph) (a : Key) : Finset Key :=
  reachN G G.nodes.length a

/-- Decidable connectivity between two keys. -/
def connB (G : Graph) (a b : Key) : Bool :=
  b ∈ closure G a

/-- Hop count of the breadth-first shortest path (`nx.shortest_path`
followed by `len(path) - 1`): the least `d` with `b` in the `d`-ball
around `a`, `none` when unreachable. -/
def dist (G : Graph) (a b : Key) : Option Nat :=
  (List.range (G.nodes.length + 1)).find? (fun d => b ∈ reachN G d a)

/-- Outcome of the `paths` command: `notFound` is the error branch
(`typer.Exit(1)`), `noPath` the normal-return "No path exists" branch,
`found` the printed path with its hop count. -/
inductive PathsResult where
  | notFound
  | noPath
  | found (hops : Nat)
deriving DecidableEq, Repr

/-- Exit status of a `paths` invocation: the two endpoint checks raise
`typer.Exit(1)`; every other branch returns normally. -/
def pathsExitCode : PathsResult → Nat
  | .notFound => 1
  | _ => 0

/-- The `paths` command on a built graph: endpoint-existence checks in
source order, then breadth-first shortest path. -/
def paths (G : Graph) (source target : Key) : PathsResult :=
  if ¬ hasNode G source then .notFound
  else if ¬ hasNode G target then .notFound
  else
    match dist G source target with
    | none => .noPath
    | some d => .found d

/-- `nx.isolates(G)`: degree-0 nodes, in node order. -/
def isolates (G : Graph) : List Key :=
  (nodeKeys G).filter (fun k => degree G k = 0)

/-- Component scan: walk the node list in order, emitting the
connected component (reachability closure) of every not-yet-seen
node. -/
def compsAux (G : Graph) : List Key → Finset Key → List (Finset Key)
  | [], _ => []
  | k :: ks, seen =>
    if k ∈ seen then compsAux G ks seen
    else closure G k :: compsAux G ks (seen ∪ closure G k)

/-- `nx.connected_components(G)`: the component partition, one entry
per component, in order of each component's first node. -/
def connected_components (G : Graph) : List (Finset Key) :=
  compsAux G (nodeKeys G) ∅

/-- `nx.number_connected_components(G)`. -/
def number_connected_components (G : Graph) : Nat :=
  (connected_components G).length

/-- Stable insertion into a list sorted non-increasingly by `f`: the
new element goes before the first entry with a not-larger value, so
earlier list elements win ties. -/
def insertDescBy {α : Type} (f : α → Nat) (x : α) : List α → List α
  | [] => [x]
  | y :: ys => if f x < f y then y :: insertDescBy f x ys else x :: y :: ys

/-- Python's `sorted(key=f, reverse=True)`: a stable non-increasing
sort. -/
def sortDescBy {α : Type} (f : α → Nat) : List α → List α
  | [] => []
  | x :: xs => insertDescBy f x (sortDescBy f xs)

/-- `G` with the single edge between `a` and `b` removed (nodes
unchanged). -/
def removeEdge (G : Graph) (a b : Key) : Graph :=
  ⟨G.nodes,
    G.edges.filter (fun e => ¬ ((e.1 = a ∧ e.2.1 = b) ∨ (e.1 = b ∧ e.2.1 = a)))⟩

/-- `G` with node `v` and all its incident edges removed. -/
def removeNode (G : Graph) (v : Key) : Graph :=
  ⟨G.nodes.filter (fun p => p.1 ≠ v),
    G.edges.filter (fun e => e.1 ≠ v ∧ e.2.1 ≠ v)⟩

/-- An edge is a bridge iff removing it disconnects its endpoints (the
semantics of `nx.bridges`). -/
def isBridge (G : Graph) (a b : Key) : Bool :=
  ¬ connB (removeEdge G a b) a b

/-- `list(nx.bridges(G))` as endpoint pairs, in stored-edge order. -/
def bridgeEdges (G : Graph) : List (Key × Key) :=
  (G.edges.filter (fun e => isBridge G e.1 e.2.1)).map (fun e => (e.1, e.2.1))

/-- A node is an articulation point iff its removal increases the
component count (the semantics of `nx.articulation_points`). -/
def isArticulation (G : Graph) (v : Key) : Bool :=
  number_connected_components G < number_connected_components (removeNode G v)

/-- `list(nx.articulation_points(G))`, in node order. -/
def articulationPoints (G : Graph) : List Key :=
  (nodeKeys G).filter (fun k => isArticulation G k)

/- ---------------------------------------------------------------
Per-command graph-level outcomes.  Rendering (tables, panels, colors)
is out of scope per the spec; each command is modelled down to the
outcome branch it takes and the graph data that branch reports.
--------------------------------------------------------------- -/

/-- Outcome of `summary`: the zero-node early return, or the reported
statistics (node/edge totals, component count, isolated node list). -/
inductive SummaryResult where
  | empty
  | report (totalNodes totalEdges componentCount : Nat) (isolated : List Key)
deriving DecidableEq, Repr

/-- The `summary` command. -/
def summary (G : Graph) : SummaryResult :=
  if G.nodes.length = 0 then .empty
  else
    .report G.nodes.length G.edges.length (number_connected_components G)
      (isolates G)

/-- The degree ranking of `connections`: optional `node_type` filter
applied first, then the stable degree-descending sort. -/
def rankedNodes (G : Graph) (node_type : Option Str) : List (Key × NodeData) :=
  let nodes :=
    match node_type with
    | none => G.nodes
    | some t => G.nodes.filter (fun p => p.2.node_type = some t)
  sortDescBy (fun p => degree G p.1) nodes

/-- The rows the most-connected table displays: the ranking truncated
to `ranked[:20]`, then degree-0 entries skipped by `continue`. -/
def mostConnectedRows (G : Graph) (node_type : Option Str) : List (Key × NodeData) :=
  ((rankedNodes G node_type).take 20).filter (fun p => degree G p.1 ≠ 0)

/-- Outcome of `connections`: zero-node early return; missing-node
error (`typer.Exit(1)`); a specific node's view; the "No matching
nodes" return; or the most-connected table rows. -/
inductive ConnectionsResult where
  | empty
  | nodeNotFound
  | nodeView (node : Key)
  | noMatching
  | mostConnected (rows : List (Key × NodeData))
deriving DecidableEq, Repr

/-- The `connections` command. -/
def connections (G : Graph) (node : Option Key) (node_type : Option Str) :
    ConnectionsResult :=
  if G.nodes.length = 0 then .empty
  else
    match node with
    | some k => if ¬ hasNode G k then .nodeNotFound else .nodeView k
    | none =>
      let nodes :=
        match node_type with
        | none => G.nodes
        | some t => G.nodes.filter (fun p => p.2.node_type = some t)
      if nodes.length = 0 then .noMatching
      else .mostConnected (mostConnectedRows G node_type)

/-- Outcome of `clusters`: zero-node early return; the single-component
message; or the size-descending component list. -/
inductive ClustersResult where
  | empty
  | singleComponent
  | multi (components : List (Finset Key))
deriving DecidableEq

/-- The `clusters` command. -/
def clusters (G : Graph) : ClustersResult :=
  if G.nodes.length = 0 then .empty
  else
    let components := sortDescBy (fun c => c.card) (connected_components G)
    if components.length ≤ 1 then .singleComponent
    else .multi components

/-- Outcome of `bridges`: the under-three-nodes "Need at least 3 nodes"
return, or the reported critical elements. -/
inductive BridgesResult where
  | notApplicable
  | report (artPoints : List Key) (bridgeList : List (Key × Key))
deriving DecidableEq, Repr

/-- The `bridges` command: articulation points sorted degree-descending
and the bridge edge list. -/
def bridges (G : Graph) : BridgesResult :=
  if G.nodes.length < 3 then .notApplicable
  else .report (sortDescBy (degree G) (articulationPoints G)) (bridgeEdges G)

/-- Outcome of `inspect`: zero-node early return; missing focus node
(`typer.Exit(1)`); a focused node view; or the overview. -/
inductive InspectResult where
  | empty
  | nodeNotFound
  | focusView (node : Key)
  | overview
deriving DecidableEq, Repr

/-- The `inspect` command. -/
def inspect (G : Graph) (focus : Option Key) : InspectResult :=
  if G.nodes.length = 0 then .empty
  else
    match focus with
    | some k => if ¬ hasNode G k then .nodeNotFound else .focusView k
    | none => .overview

/-- Key rendered as the source's string key, e.g. `entity:1`; the
suspect-pool prefix is `suspect`. -/
def keyStr (k : Key) : Str :=
  (match k.1 with
    | .entity => "entity".data
    | .evidence => "evidence".data
    | .event => "event".data
    | .hypothesis => "hypothesis".data
    | .suspect_pool => "suspect".data
    | .source => "source".data) ++ ":".data ++ Nat.toDigits 10 k.2

/-- Outcome of `visualize`: zero-node early return, or the exported
on-graph node labels — each `_truncate(data.get("label", node_id), 30)`.
Colors, shapes and tooltip text are rendering, out of scope. -/
inductive VisualizeResult where
  | empty
  | saved (labels : List Str)
deriving DecidableEq, Repr

/-- The `visualize` command. -/
def visualize (G : Graph) : VisualizeResult :=
  if G.nodes.length = 0 then .empty
  else .saved (G.nodes.map (fun p => _truncate (p.2.label.getD (keyStr p.1)) 30))

/- ---------------------------------------------------------------
Specification-side notions used to state the theorems: walks,
connectivity, well-formedness of a built graph, and the concrete
record sets from the spec's end-to-end scenario and the tests.
--------------------------------------------------------------- -/

/-- `WalkLen G n a b`: there is a walk of exactly `n` edges from `a`
to `b`. -/
def WalkLen (G : Graph) : Nat → Key → Key → Prop
  | 0, a, b => a = b
  | n + 1, a, b => ∃ c, WalkLen G n a c ∧ Adj G c b

/-- `a` and `b` are connected by some walk. -/
def Conn (G : Graph) (a b : Key) : Prop :=
  ∃ n, WalkLen G n a b

/-- Well-formedness of a graph object: node keys are unique and every
stored edge's endpoints are nodes. -/
structure Wf (G : Graph) : Prop where
  nodupKeys : (nodeKeys G).Nodup
  edgeFst : ∀ e ∈ G.edges, e.1 ∈ nodeKeys G
  edgeSnd : ∀ e ∈ G.edges, e.2.1 ∈ nodeKeys G

/-- Two edge entries cover the same unordered node pair. -/
def samePair (e f : Key × Key × EdgeData) : Prop :=
  (e.1 = f.1 ∧ e.2.1 = f.2.1) ∨ (e.1 = f.2.1 ∧ e.2.1 = f.1)

instance (e f : Key × Key × EdgeData) : Decidable (samePair e f) := by
  unfold samePair
  infer_instance

/-- The graph is simple: no two stored edge entries cover the same
unordered node pair. -/
def SimpleEdges (G : Graph) : Prop :=
  G.edges.Pairwise (fun e f => ¬ samePair e f)

/-- `G.edges[a, b]`: the attribute dict of the stored edge between `a`
and `b`, if any. -/
def lookupEdge (G : Graph) (a b : Key) : Option EdgeData :=
  (G.edges.find? (fun e => (e.1 = a ∧ e.2.1 = b) ∨ (e.1 = b ∧ e.2.1 = a))).map
    (fun e => e.2.2)

/-- The spec's end-to-end scenario record set (§8), identical to the
test fixture `case_with_data`: two sources, three entities, one
relationship, one evidence item, one event, one hypothesis with one
ACH score, one unlinked suspect pool. -/
def demoRecords : Records :=
  { entities :=
      [ { id := 1, name := "Victim A".data, entity_type := "person".data,
          source_id := some 1 }
      , { id := 2, name := "Suspect B".data, entity_type := "person".data,
          source_id := some 1 }
      , { id := 3, name := "Location X".data, entity_type := "location".data,
          source_id := some 2 } ]
    evidence_items :=
      [ { id := 1, name := "Knife".data, evidence_type := "physical".data,
          status := "known".data, source_id := some 1 } ]
    events :=
      [ { id := 1, description := "Crime occurred".data,
          timestamp_start := "2026-01-15T22:00".data,
          confidence := some "high".data, source_id := some 1 } ]
    hypotheses :=
      [ { id := 1, description := "Suspect B committed the crime".data,
          tier := some "plausible".data } ]
    suspect_pools :=
      [ { id := 1, category := "Known associates".data,
          priority := some "high".data } ]
    sources :=
      [ { id := 1, source_type := "official".data }
      , { id := 2, source_type := "news".data } ]
    relationships :=
      [ { entity_a_id := 1, entity_b_id := 2,
          relationship_type := some "known_associate".data,
          strength := some "0.7".data } ]
    hypothesis_evidence_scores :=
      [ { hypothesis_id := 1, evidence_id := 1, consistency := some "C".data,
          diagnostic_weight := some "H".data } ] }

/-- The spec scenario graph. -/
def demoG : Graph :=
  _build_graph demoRecords

/-- A record set with a single evidence item whose `source_id` points
at a source record that does not exist. -/
def danglingEvidenceRecords : Records :=
  { evidence_items :=
      [ { id := 1, name := "Knife".data, evidence_type := "physical".data,
          status := "known".data, source_id := some 5 } ] }

/-- Two entities with both an explicit relationship row and an alias
link (entity 1's `canonical_id` is 2), so the builder writes two edges
on the same unordered pair. -/
def aliasOverwriteRecords : Records :=
  { entities :=
      [ { id := 1, name := "A".data, entity_type := "person".data,
          canonical_id := some 2 }
      , { id := 2, name := "B".data, entity_type := "person".data } ]
    relationships :=
      [ { entity_a_id := 1, entity_b_id := 2,
          relationship_type := some "knows".data,
          strength := some "0.9".data, confirmed := true } ] }

/-- Like `aliasOverwriteRecords` but without the alias link: the built
graph holds exactly the relationship edge. -/
def relOnlyRecords : Records :=
  { entities :=
      [ { id := 1, name := "A".data, entity_type := "person".data }
      , { id := 2, name := "B".data, entity_type := "person".data } ]
    relationships :=
      [ { entity_a_id := 1, entity_b_id := 2,
          relationship_type := some "knows".data,
          strength := some "0.9".data, confirmed := true } ] }

/-- Twenty-one entities all linked to one source, plus one unlinked
suspect pool: 22 positive-degree nodes and 1 isolated node. -/
def manyEntitiesRecords : Records :=
  { entities :=
      (List.range 21).map (fun i =>
        { id := i + 1, name := "E".data, entity_type := "person".data,
          source_id := some 1 })
    suspect_pools := [ { id := 1, category := "Pool".data } ]
    sources := [ { id := 1, source_type := "official".data } ] }

/-- An empty Record Source. -/
def emptyRecords : Records :=
  {}

/- ---------------------------------------------------------------
Basic lemmas: node membership, write operations, well-formedness and
simplicity of every built graph.
--------------------------------------------------------------- -/

theorem hasNode_iff {G : Graph} {k : Key} :
    hasNode G k = true ↔ k ∈ nodeKeys G := by
  simp only [hasNode, nodeKeys, List.any_eq_true, List.mem_map,
    decide_eq_true_eq]

theorem keys_setNode (ps : List (Key × NodeData)) (k : Key) (d : NodeData) :
    (setNode ps k d).map Prod.fst =
      if ps.any (fun p => p.1 = k) then ps.map Prod.fst
      else ps.map Prod.fst ++ [k] := by
  induction ps with
  | nil => simp [setNode]
  | cons p ps ih =>
    by_cases h : p.1 = k
    · simp [setNode, h]
    · simp only [setNode, if_neg h, List.map_cons, List.any_cons, ih]
      by_cases hAny : ps.any (fun p => p.1 = k)
      · simp [hAny, h]
      · simp [hAny, h]

theorem edges_add_node (G : Graph) (k : Key) (d : NodeData) :
    (add_node G k d).edges = G.edges :=
  rfl

theorem keys_add_node (G : Graph) (k : Key) (d : NodeData) :
    nodeKeys (add_node G k d) =
      if hasNode G k then nodeKeys G else nodeKeys G ++ [k] := by
  simp [add_node, nodeKeys, hasNode, keys_setNode]

theorem keys_ensureNode (G : Graph) (k : Key) :
    nodeKeys (ensureNode G k) =
      if hasNode G k then nodeKeys G else nodeKeys G ++ [k] := by
  unfold ensureNode
  split
  · rfl
  · simp [nodeKeys]

theorem edges_ensureNode (G : Graph) (k : Key) :
    (ensureNode G k).edges = G.edges := by
  unfold ensureNode
  split <;> rfl

theorem mem_keys_ensureNode_self (G : Graph) (k : Key) :
    k ∈ nodeKeys (ensureNode G k) := by
  rw [keys_ensureNode]
  by_cases h : hasNode G k = true
  · rw [if_pos h]
    exact hasNode_iff.mp h
  · rw [if_neg h]
    simp

theorem keys_ensureNode_sub (G : Graph) (k : Key) :
    nodeKeys G ⊆ nodeKeys (ensureNode G k) := by
  rw [keys_ensureNode]
  split
  · exact fun _ h => h
  · exact fun x h => List.mem_append_left _ h

theorem nodes_add_edge (G : Graph) (a b : Key) (d : EdgeData) :
    (add_edge G a b d).nodes = (ensureNode (ensureNode G a) b).nodes :=
  rfl

theorem edges_add_edge (G : Graph) (a b : Key) (d : EdgeData) :
    (add_edge G a b d).edges = setEdge G.edges a b d := by
  show setEdge (ensureNode (ensureNode G a) b).edges a b d = setEdge G.edges a b d
  rw [edges_ensureNode, edges_ensureNode]

theorem keys_add_edge (G : Graph) (a b : Key) (d : EdgeData) :
    nodeKeys (add_edge G a b d) = nodeKeys (ensureNode (ensureNode G a) b) :=
  rfl

theorem setEdge_endpoints {es : List (Key × Key × EdgeData)} {a b : Key}
    {d : EdgeData} {e : Key × Key × EdgeData} (he : e ∈ setEdge es a b d) :
    (∃ f ∈ es, e.1 = f.1 ∧ e.2.1 = f.2.1) ∨ (e.1 = a ∧ e.2.1 = b) := by
  induction es with
  | nil =>
    simp only [setEdge, List.mem_singleton] at he
    subst he
    exact Or.inr ⟨rfl, rfl⟩
  | cons f es ih =>
    unfold setEdge at he
    split at he
    · rcases List.mem_cons.mp he with h | h
      · subst h
        exact Or.inl ⟨f, List.mem_cons_self f es, rfl, rfl⟩
      · exact Or.inl ⟨e, List.mem_cons_of_mem f h, rfl, rfl⟩
    · rcases List.mem_cons.mp he with h | h
      · subst h
        exact Or.inl ⟨e, List.mem_cons_self e es, rfl, rfl⟩
      · rcases ih h with ⟨g, hg, h1, h2⟩ | h
        · exact Or.inl ⟨g, List.mem_cons_of_mem f hg, h1, h2⟩
        · exact Or.inr h

theorem wf_empty : Wf ⟨[], []⟩ :=
  ⟨List.nodup_nil, by simp, by simp⟩

theorem wf_add_node {G : Graph} (hG : Wf G) (k : Key) (d : NodeData) :
    Wf (add_node G k d) := by
  have hkeys := keys_add_node G k d
  by_cases h : hasNode G k = true
  · rw [if_pos h] at hkeys
    exact ⟨hkeys ▸ hG.nodupKeys,
      fun e he => hkeys ▸ hG.edgeFst e he,
      fun e he => hkeys ▸ hG.edgeSnd e he⟩
  · rw [if_neg h] at hkeys
    refine ⟨?_, ?_, ?_⟩
    · rw [hkeys]
      refine List.Nodup.append hG.nodupKeys (List.nodup_singleton k) ?_
      intro x hx hx'
      rcases List.mem_singleton.mp hx'
      exact h (hasNode_iff.mpr hx)
    · intro e he
      rw [hkeys]
      exact List.mem_append_left _ (hG.edgeFst e he)
    · intro e he
      rw [hkeys]
      exact List.mem_append_left _ (hG.edgeSnd e he)

theorem wf_ensureNode {G : Graph} (hG : Wf G) (k : Key) :
    Wf (ensureNode G k) := by
  have hkeys := keys_ensureNode G k
  have hedges := edges_ensureNode G k
  by_cases h : hasNode G k = true
  · rw [if_pos h] at hkeys
    exact ⟨hkeys ▸ hG.nodupKeys,
      fun e he => hkeys ▸ hG.edgeFst e (hedges ▸ he),
      fun e he => hkeys ▸ hG.edgeSnd e (hedges ▸ he)⟩
  · rw [if_neg h] at hkeys
    refine ⟨?_, ?_, ?_⟩
    · rw [hkeys]
      refine List.Nodup.append hG.nodupKeys (List.nodup_singleton k) ?_
      intro x hx hx'
      rcases List.mem_singleton.mp hx'
      exact h (hasNode_iff.mpr hx)
    · intro e he
      rw [hkeys]
      exact List.mem_append_left _ (hG.edgeFst e (hedges ▸ he))
    · intro e he
      rw [hkeys]
      exact List.mem_append_left _ (hG.edgeSnd e (hedges ▸ he))

theorem wf_add_edge {G : Graph} (hG : Wf G) (a b : Key) (d : EdgeData) :
    Wf (add_edge G a b d) := by
  have h2 : Wf (ensureNode (ensureNode G a) b) :=
    wf_ensureNode (wf_ensureNode hG a) b
  have ha : a ∈ nodeKeys (ensureNode (ensureNode G a) b) :=
    keys_ensureNode_sub _ b (mem_keys_ensureNode_self G a)
  have hb : b ∈ nodeKeys (ensureNode (ensureNode G a) b) :=
    mem_keys_ensureNode_self _ b
  have hkeysub : nodeKeys G ⊆ nodeKeys (ensureNode (ensureNode G a) b) :=
    fun x hx => keys_ensureNode_sub _ b (keys_ensureNode_sub G a hx)
  refine ⟨h2.nodupKeys, ?_, ?_⟩
  · intro e he
    rw [edges_add_edge] at he
    rw [keys_add_edge]
    rcases setEdge_endpoints he with ⟨f, hf, h1, _⟩ | ⟨h1, _⟩
    · rw [h1]
      exact hkeysub (hG.edgeFst f hf)
    · rw [h1]
      exact ha
  · intro e he
    rw [edges_add_edge] at he
    rw [keys_add_edge]
    rcases setEdge_endpoints he with ⟨f, hf, _, h1⟩ | ⟨_, h1⟩
    · rw [h1]
      exact hkeysub (hG.edgeSnd f hf)
    · rw [h1]
      exact hb

theorem foldl_preserve {α : Type} {P : Graph → Prop} {step : Graph → α → Graph}
    (h : ∀ G x, P G → P (step G x)) :
    ∀ (l : List α) (G : Graph), P G → P (l.foldl step G) := by
  intro l
  induction l with
  | nil => intro G hG; exact hG
  | cons x xs ih => intro G hG; exact ih _ (h G x hG)

/-- Any property preserved by `add_node` and `add_edge` holds for every
built graph. -/
theorem build_preserve {P : Graph → Prop}
    (h0 : P ⟨[], []⟩)
    (hnode : ∀ G k d, P G → P (add_node G k d))
    (hedge : ∀ G a b d, P G → P (add_edge G a b d))
    (r : Records) : P (_build_graph r) := by
  unfold _build_graph addEntityNodes addEvidenceNodes addEventNodes
    addHypothesisNodes addSuspectPoolNodes addSourceNodes
    addRelationshipEdges addAliasEdges addEvidenceSourceEdges
    addEventSourceEdges addEntitySourceEdges addAchEdges
  refine foldl_preserve ?_ _ _ (foldl_preserve ?_ _ _ (foldl_preserve ?_ _ _
    (foldl_preserve ?_ _ _ (foldl_preserve ?_ _ _ (foldl_preserve ?_ _ _
    (foldl_preserve ?_ _ _ (foldl_preserve ?_ _ _ (foldl_preserve ?_ _ _
    (foldl_preserve ?_ _ _ (foldl_preserve ?_ _ _ (foldl_preserve ?_ _ _
    h0)))))))))))
  all_goals intro G x hPG
  all_goals try dsimp only
  all_goals repeat' split
  all_goals
    first
      | exact hnode _ _ _ hPG
      | exact hedge _ _ _ _ hPG
      | exact hPG

/-- Every built graph is well-formed: node keys are unique and every
edge endpoint is a node. -/
theorem wf_build (r : Records) : Wf (_build_graph r) :=
  build_preserve wf_empty (fun _ k d h => wf_add_node h k d)
    (fun _ a b d h => wf_add_edge h a b d) r


/- ---------------------------------------------------------------
Simplicity: at most one stored edge per unordered pair, and the
dict-update overwrite semantics of a second `add_edge` on the same
pair.
--------------------------------------------------------------- -/

theorem samePair_congr {f g g2 : Key × Key × EdgeData}
    (h1 : g.1 = g2.1) (h2 : g.2.1 = g2.2.1) :
    samePair f g ↔ samePair f g2 := by
  unfold samePair
  rw [h1, h2]

theorem simple_setEdge {es : List (Key × Key × EdgeData)} {a b : Key}
    {d : EdgeData} (h : es.Pairwise (fun e f => ¬ samePair e f)) :
    (setEdge es a b d).Pairwise (fun e f => ¬ samePair e f) := by
  induction es with
  | nil => simp [setEdge]
  | cons f es ih =>
    rcases List.pairwise_cons.mp h with ⟨hf, hes⟩
    unfold setEdge
    split
    · refine List.pairwise_cons.mpr ⟨?_, hes⟩
      intro g hg
      exact hf g hg
    · rename_i hcond
      refine List.pairwise_cons.mpr ⟨?_, ih hes⟩
      intro g hg
      rcases setEdge_endpoints hg with ⟨g2, hg2, h1, h2⟩ | ⟨h1, h2⟩
      · intro hsp
        exact hf g2 hg2 ((samePair_congr h1 h2).mp hsp)
      · intro hsp
        apply hcond
        unfold samePair at hsp
        rw [h1, h2] at hsp
        exact hsp

theorem simple_empty : SimpleEdges ⟨[], []⟩ :=
  List.Pairwise.nil

theorem simple_add_node {G : Graph} (h : SimpleEdges G) (k : Key)
    (d : NodeData) : SimpleEdges (add_node G k d) :=
  h

theorem simple_add_edge {G : Graph} (h : SimpleEdges G) (a b : Key)
    (d : EdgeData) : SimpleEdges (add_edge G a b d) := by
  unfold SimpleEdges
  rw [edges_add_edge]
  exact simple_setEdge h

/-- Every built graph is simple: at most one stored edge per unordered
node pair. -/
theorem simple_build (r : Records) : SimpleEdges (_build_graph r) :=
  build_preserve simple_empty (fun _ k d h => simple_add_node h k d)
    (fun _ a b d h => simple_add_edge h a b d) r

theorem find?_map_setEdge {es : List (Key × Key × EdgeData)} {a b : Key}
    {d0 d1 : EdgeData}
    (h : (es.find? (fun e =>
        (e.1 = a ∧ e.2.1 = b) ∨ (e.1 = b ∧ e.2.1 = a))).map
        (fun e => e.2.2) = some d0) :
    ((setEdge es a b d1).find? (fun e =>
        (e.1 = a ∧ e.2.1 = b) ∨ (e.1 = b ∧ e.2.1 = a))).map
        (fun e => e.2.2) = some (updEdgeData d0 d1) := by
  induction es with
  | nil => simp [List.find?] at h
  | cons f es ih =>
    by_cases hc : (f.1 = a ∧ f.2.1 = b) ∨ (f.1 = b ∧ f.2.1 = a)
    · rw [List.find?_cons_of_pos _ (by simpa using hc)] at h
      simp only [Option.map_some'] at h
      unfold setEdge
      rw [if_pos hc]
      rw [List.find?_cons_of_pos _ (by simpa using hc)]
      simp only [Option.map_some']
      rw [← Option.some_inj.mp h]
    · rw [List.find?_cons_of_neg _ (by simpa using hc)] at h
      unfold setEdge
      rw [if_neg hc]
      rw [List.find?_cons_of_neg _ (by simpa using hc)]
      exact ih h

/-- A second `add_edge` on an existing unordered pair merges attribute
dicts: keys the new edge supplies overwrite, the rest persist. -/
theorem lookupEdge_add_edge {G : Graph} {a b : Key} {d0 : EdgeData}
    (d1 : EdgeData) (h : lookupEdge G a b = some d0) :
    lookupEdge (add_edge G a b d1) a b = some (updEdgeData d0 d1) := by
  unfold lookupEdge at h
  unfold lookupEdge
  rw [edges_add_edge]
  exact find?_map_setEdge h

/- ---------------------------------------------------------------
Walks and breadth-first reachability: the `reachN` balls compute
exactly walk-reachability, saturate within `|nodes|` steps on a
well-formed graph, and are symmetric.
--------------------------------------------------------------- -/

theorem adj_symm {G : Graph} {u v : Key} (h : Adj G u v) : Adj G v u := by
  rcases h with ⟨e, he, h1 | h2⟩
  · exact ⟨e, he, Or.inr ⟨h1.1, h1.2⟩⟩
  · exact ⟨e, he, Or.inl ⟨h2.1, h2.2⟩⟩

theorem adj_of_edge_subset {G1 G2 : Graph}
    (hsub : ∀ e ∈ G2.edges, e ∈ G1.edges) {u v : Key} (h : Adj G2 u v) :
    Adj G1 u v := by
  rcases h with ⟨e, he, hor⟩
  exact ⟨e, hsub e he, hor⟩

theorem adj_mem_keys {G : Graph} (hG : Wf G) {u v : Key} (h : Adj G u v) :
    v ∈ nodeKeys G := by
  rcases h with ⟨e, he, ⟨_, h2⟩ | ⟨h1, _⟩⟩
  · exact h2 ▸ hG.edgeSnd e he
  · exact h1 ▸ hG.edgeFst e he

theorem mem_nbrs {G : Graph} {u v : Key} : v ∈ nbrs G u ↔ Adj G u v := by
  unfold nbrs Adj
  rw [List.mem_filterMap]
  constructor
  · rintro ⟨e, he, hfe⟩
    by_cases h1 : e.1 = u
    · rw [if_pos h1] at hfe
      exact ⟨e, he, Or.inl ⟨h1, Option.some_inj.mp hfe⟩⟩
    · rw [if_neg h1] at hfe
      by_cases h2 : e.2.1 = u
      · rw [if_pos h2] at hfe
        exact ⟨e, he, Or.inr ⟨Option.some_inj.mp hfe, h2⟩⟩
      · rw [if_neg h2] at hfe
        exact absurd hfe (by simp)
  · rintro ⟨e, he, ⟨h1, h2⟩ | ⟨h1, h2⟩⟩
    · refine ⟨e, he, ?_⟩
      rw [if_pos h1, h2]
    · refine ⟨e, he, ?_⟩
      by_cases hu : e.1 = u
      · rw [if_pos hu, ← h1, hu, h2]
      · rw [if_neg hu, if_pos h2, h1]

theorem walkLen_cons {G : Graph} {n : Nat} {a b : Key} :
    WalkLen G (n + 1) a b ↔ ∃ c, Adj G a c ∧ WalkLen G n c b := by
  induction n generalizing b with
  | zero =>
    constructor
    · rintro ⟨c, hc, hadj⟩
      exact ⟨b, (show a = c from hc) ▸ hadj, rfl⟩
    · rintro ⟨c, hadj, hc⟩
      exact ⟨a, rfl, (show c = b from hc) ▸ hadj⟩
  | succ n ih =>
    constructor
    · rintro ⟨c, hc, hadj⟩
      rcases ih.mp hc with ⟨d, hd, hw⟩
      exact ⟨d, hd, c, hw, hadj⟩
    · rintro ⟨c, hadj, d, hw, hadj2⟩
      exact ⟨d, ih.mpr ⟨c, hadj, hw⟩, hadj2⟩

theorem walkLen_symm {G : Graph} {n : Nat} {a b : Key}
    (h : WalkLen G n a b) : WalkLen G n b a := by
  induction n generalizing b with
  | zero => exact (show a = b from h) ▸ rfl
  | succ n ih =>
    rcases h with ⟨c, hc, hadj⟩
    exact walkLen_cons.mpr ⟨c, adj_symm hadj, ih hc⟩

theorem walkLen_trans {G : Graph} {m n : Nat} {a b c : Key}
    (h1 : WalkLen G m a b) (h2 : WalkLen G n b c) :
    WalkLen G (m + n) a c := by
  induction n generalizing c with
  | zero => exact (show b = c from h2) ▸ h1
  | succ n ih =>
    rcases h2 with ⟨d, hd, hadj⟩
    exact ⟨d, ih hd, hadj⟩

theorem conn_refl (G : Graph) (a : Key) : Conn G a a :=
  ⟨0, rfl⟩

theorem conn_symm {G : Graph} {a b : Key} (h : Conn G a b) : Conn G b a := by
  rcases h with ⟨n, hw⟩
  exact ⟨n, walkLen_symm hw⟩

theorem conn_trans {G : Graph} {a b c : Key} (h1 : Conn G a b)
    (h2 : Conn G b c) : Conn G a c := by
  rcases h1 with ⟨m, hm⟩
  rcases h2 with ⟨n, hn⟩
  exact ⟨m + n, walkLen_trans hm hn⟩

theorem conn_of_adj {G : Graph} {a b : Key} (h : Adj G a b) : Conn G a b :=
  ⟨1, a, rfl, h⟩

theorem walkLen_of_edge_subset {G1 G2 : Graph}
    (hsub : ∀ e ∈ G2.edges, e ∈ G1.edges) {n : Nat} {a b : Key}
    (h : WalkLen G2 n a b) : WalkLen G1 n a b := by
  induction n generalizing b with
  | zero => exact h
  | succ n ih =>
    rcases h with ⟨c, hc, hadj⟩
    exact ⟨c, ih hc, adj_of_edge_subset hsub hadj⟩

theorem conn_of_edge_subset {G1 G2 : Graph}
    (hsub : ∀ e ∈ G2.edges, e ∈ G1.edges) {a b : Key} (h : Conn G2 a b) :
    Conn G1 a b := by
  rcases h with ⟨n, hw⟩
  exact ⟨n, walkLen_of_edge_subset hsub hw⟩

theorem mem_expand {G : Graph} {s : Finset Key} {x : Key} :
    x ∈ expand G s ↔ x ∈ s ∨ ∃ y ∈ s, Adj G y x := by
  unfold expand
  simp [Finset.mem_union, Finset.mem_biUnion, List.mem_toFinset, mem_nbrs]

theorem expand_subset {G : Graph} {s : Finset Key} : s ⊆ expand G s := by
  intro x hx
  exact mem_expand.mpr (Or.inl hx)

theorem expand_mono {G : Graph} {s t : Finset Key} (h : s ⊆ t) :
    expand G s ⊆ expand G t := by
  intro x hx
  rcases mem_expand.mp hx with hx | ⟨y, hy, hadj⟩
  · exact mem_expand.mpr (Or.inl (h hx))
  · exact mem_expand.mpr (Or.inr ⟨y, h hy, hadj⟩)

theorem reachN_mono_succ (G : Graph) (n : Nat) (a : Key) :
    reachN G n a ⊆ reachN G (n + 1) a :=
  expand_subset

theorem reachN_mono {G : Graph} {m n : Nat} (h : m ≤ n) (a : Key) :
    reachN G m a ⊆ reachN G n a := by
  induction h with
  | refl => exact fun x hx => hx
  | step h ih => exact fun x hx => reachN_mono_succ G _ a (ih hx)

theorem mem_reachN {G : Graph} {n : Nat} {a b : Key} :
    b ∈ reachN G n a ↔ ∃ k ≤ n, WalkLen G k a b := by
  induction n generalizing b with
  | zero =>
    simp only [reachN, Finset.mem_singleton]
    constructor
    · rintro rfl
      exact ⟨0, Nat.le_refl 0, rfl⟩
    · rintro ⟨k, hk, hw⟩
      rcases Nat.le_zero.mp hk
      exact (show a = b from hw).symm
  | succ n ih =>
    rw [show reachN G (n + 1) a = expand G (reachN G n a) from rfl, mem_expand]
    constructor
    · rintro (hb | ⟨y, hy, hadj⟩)
      · rcases ih.mp hb with ⟨k, hk, hw⟩
        exact ⟨k, Nat.le_succ_of_le hk, hw⟩
      · rcases ih.mp hy with ⟨k, hk, hw⟩
        exact ⟨k + 1, Nat.succ_le_succ hk, y, hw, hadj⟩
    · rintro ⟨k, hk, hw⟩
      match k, hw with
      | 0, hw =>
        left
        exact ih.mpr ⟨0, Nat.zero_le n, hw⟩
      | k + 1, ⟨c, hc, hadj⟩ =>
        right
        exact ⟨c, ih.mpr ⟨k, Nat.le_of_succ_le_succ hk, hc⟩, hadj⟩

theorem mem_reachN_symm {G : Graph} {n : Nat} {a b : Key} :
    b ∈ reachN G n a ↔ a ∈ reachN G n b := by
  simp only [mem_reachN]
  constructor
  · rintro ⟨k, hk, hw⟩
    exact ⟨k, hk, walkLen_symm hw⟩
  · rintro ⟨k, hk, hw⟩
    exact ⟨k, hk, walkLen_symm hw⟩

theorem reachN_subset_keys {G : Graph} (hG : Wf G) {a : Key}
    (ha : a ∈ nodeKeys G) (n : Nat) :
    reachN G n a ⊆ (nodeKeys G).toFinset := by
  induction n with
  | zero =>
    intro x hx
    rcases Finset.mem_singleton.mp hx
    exact List.mem_toFinset.mpr ha
  | succ n ih =>
    intro x hx
    rcases mem_expand.mp hx with hx | ⟨y, _, hadj⟩
    · exact ih hx
    · exact List.mem_toFinset.mpr (adj_mem_keys hG hadj)

theorem reachN_fix_forever {G : Graph} {a : Key} {d : Nat}
    (h : reachN G (d + 1) a = reachN G d a) :
    ∀ m, d ≤ m → reachN G m a = reachN G d a := by
  intro m hm
  induction hm with
  | refl => rfl
  | step hle ih =>
    show expand G (reachN G _ a) = reachN G d a
    rw [ih]
    exact h

theorem reachN_card_grow {G : Graph} {a : Key} :
    ∀ m, (∀ d, d < m → reachN G (d + 1) a ≠ reachN G d a) →
      m + 1 ≤ (reachN G m a).card := by
  intro m
  induction m with
  | zero =>
    intro _
    simp [reachN]
  | succ m ih =>
    intro h
    have h1 : m + 1 ≤ (reachN G m a).card :=
      ih fun d hd => h d (Nat.lt_succ_of_lt hd)
    have h2 : reachN G m a ⊂ reachN G (m + 1) a :=
      Finset.ssubset_iff_subset_ne.mpr
        ⟨reachN_mono_succ G m a, fun he => h m (Nat.lt_succ_self m) he.symm⟩
    exact Nat.succ_le_of_lt (Nat.lt_of_le_of_lt h1 (Finset.card_lt_card h2))

theorem reachN_saturates {G : Graph} (hG : Wf G) {a : Key}
    (ha : a ∈ nodeKeys G) :
    ∃ d, d ≤ G.nodes.length ∧ reachN G (d + 1) a = reachN G d a := by
  by_contra hcon
  push_neg at hcon
  have hgrow : ∀ d, d < G.nodes.length + 1 →
      reachN G (d + 1) a ≠ reachN G d a := by
    intro d hd
    exact hcon d (Nat.le_of_lt_succ hd)
  have h1 := reachN_card_grow (G := G) (a := a) (G.nodes.length + 1) hgrow
  have h2 : (reachN G (G.nodes.length + 1) a).card ≤ G.nodes.length := by
    calc (reachN G (G.nodes.length + 1) a).card
        ≤ (nodeKeys G).toFinset.card :=
          Finset.card_le_card (reachN_subset_keys hG ha _)
      _ ≤ (nodeKeys G).length := List.toFinset_card_le _
      _ = G.nodes.length := by simp [nodeKeys]
  omega

theorem reachN_stab {G : Graph} (hG : Wf G) {a : Key}
    (ha : a ∈ nodeKeys G) {b : Key} {k : Nat} (hb : b ∈ reachN G k a) :
    b ∈ closure G a := by
  unfold closure
  rcases Nat.le_total k G.nodes.length with hk | hk
  · exact reachN_mono hk a hb
  · rcases reachN_saturates hG ha with ⟨d, hd, hfix⟩
    have h1 : reachN G k a = reachN G d a :=
      reachN_fix_forever hfix k (Nat.le_trans hd hk)
    have h2 : reachN G G.nodes.length a = reachN G d a :=
      reachN_fix_forever hfix _ hd
    rw [h2]
    rw [h1] at hb
    exact hb

theorem mem_closure_iff {G : Graph} (hG : Wf G) {a : Key}
    (ha : a ∈ nodeKeys G) {b : Key} :
    b ∈ closure G a ↔ Conn G a b := by
  constructor
  · intro hb
    rcases mem_reachN.mp hb with ⟨k, _, hw⟩
    exact ⟨k, hw⟩
  · rintro ⟨k, hw⟩
    exact reachN_stab hG ha (mem_reachN.mpr ⟨k, Nat.le_refl k, hw⟩)

theorem connB_iff {G : Graph} (hG : Wf G) {a : Key}
    (ha : a ∈ nodeKeys G) {b : Key} :
    connB G a b = true ↔ Conn G a b := by
  unfold connB
  rw [decide_eq_true_eq]
  exact mem_closure_iff hG ha

theorem find?_congr {α : Type} {p q : α → Bool} :
    ∀ {l : List α}, (∀ x ∈ l, p x = q x) → l.find? p = l.find? q := by
  intro l
  induction l with
  | nil => intro _; rfl
  | cons x xs ih =>
    intro h
    by_cases hp : p x = true
    · rw [List.find?_cons_of_pos _ hp,
        List.find?_cons_of_pos _ ((h x (List.mem_cons_self x xs)) ▸ hp)]
    · rw [List.find?_cons_of_neg _ hp,
        List.find?_cons_of_neg _ ((h x (List.mem_cons_self x xs)) ▸ hp)]
      exact ih fun y hy => h y (List.mem_cons_of_mem x hy)

theorem dist_symm (G : Graph) (a b : Key) : dist G a b = dist G b a := by
  unfold dist
  exact find?_congr fun d _ => by
    simp only [decide_eq_decide]
    exact mem_reachN_symm

theorem dist_eq_none_iff {G : Graph} {a b : Key} :
    dist G a b = none ↔ b ∉ closure G a := by
  unfold dist closure
  rw [List.find?_eq_none]
  constructor
  · intro h hb
    have := h G.nodes.length (by simp)
    simp only [decide_eq_true_eq] at this
    exact this hb
  · intro hb d hd
    simp only [List.mem_range] at hd
    simp only [decide_eq_true_eq]
    intro hmem
    exact hb (reachN_mono (Nat.le_of_lt_succ hd) a hmem)

/- ---------------------------------------------------------------
Connected components: the component scan emits one closure per
equivalence class, so its length is the number of distinct classes.
--------------------------------------------------------------- -/

theorem mem_self_closure (G : Graph) (a : Key) : a ∈ closure G a :=
  reachN_mono (Nat.zero_le _) a (Finset.mem_singleton_self a)

theorem closure_subset_keys {G : Graph} (hG : Wf G) {a : Key}
    (ha : a ∈ nodeKeys G) : closure G a ⊆ (nodeKeys G).toFinset :=
  reachN_subset_keys hG ha _

theorem closure_eq_of_conn {G : Graph} (hG : Wf G) {x y : Key}
    (hx : x ∈ nodeKeys G) (hy : y ∈ nodeKeys G) (h : Conn G x y) :
    closure G x = closure G y := by
  ext z
  rw [mem_closure_iff hG hx, mem_closure_iff hG hy]
  constructor
  · intro hz
    exact conn_trans (conn_symm h) hz
  · intro hz
    exact conn_trans h hz

theorem closure_image_self {G : Graph} (hG : Wf G) {k : Key}
    (hk : k ∈ nodeKeys G) :
    (closure G k).image (closure G) = {closure G k} := by
  ext y
  simp only [Finset.mem_image, Finset.mem_singleton]
  constructor
  · rintro ⟨x, hx, rfl⟩
    have hxk : x ∈ nodeKeys G :=
      List.mem_toFinset.mp (closure_subset_keys hG hk hx)
    exact closure_eq_of_conn hG hxk hk
      (conn_symm ((mem_closure_iff hG hk).mp hx))
  · rintro rfl
    exact ⟨k, mem_self_closure G k, rfl⟩

theorem compsAux_length {G : Graph} (hG : Wf G) :
    ∀ (ks : List Key) (seen : Finset Key),
      (∀ k ∈ ks, k ∈ nodeKeys G) →
      (∀ x ∈ seen, x ∈ nodeKeys G ∧ closure G x ⊆ seen) →
      (compsAux G ks seen).length =
        ((ks.toFinset.image (closure G)) \ (seen.image (closure G))).card := by
  intro ks
  induction ks with
  | nil =>
    intro seen _ _
    simp [compsAux]
  | cons k ks ih =>
    intro seen hks hinv
    have hk : k ∈ nodeKeys G := hks k (List.mem_cons_self k ks)
    have hks2 : ∀ j ∈ ks, j ∈ nodeKeys G :=
      fun j hj => hks j (List.mem_cons_of_mem k hj)
    by_cases hmem : k ∈ seen
    · simp only [compsAux, if_pos hmem]
      rw [ih seen hks2 hinv]
      congr 1
      rw [List.toFinset_cons, Finset.image_insert]
      exact (Finset.insert_sdiff_of_mem _
        (Finset.mem_image.mpr ⟨k, hmem, rfl⟩)).symm
    · simp only [compsAux, if_neg hmem]
      have hinv2 : ∀ x ∈ seen ∪ closure G k,
          x ∈ nodeKeys G ∧ closure G x ⊆ seen ∪ closure G k := by
        intro x hx
        rcases Finset.mem_union.mp hx with hx | hx
        · exact ⟨(hinv x hx).1,
            fun y hy => Finset.mem_union_left _ ((hinv x hx).2 hy)⟩
        · have hxk : x ∈ nodeKeys G :=
            List.mem_toFinset.mp (closure_subset_keys hG hk hx)
          have : closure G x = closure G k :=
            closure_eq_of_conn hG hxk hk
              (conn_symm ((mem_closure_iff hG hk).mp hx))
          exact ⟨hxk, this ▸ fun y hy => Finset.mem_union_right _ hy⟩
      have himg : (seen ∪ closure G k).image (closure G) =
          seen.image (closure G) ∪ {closure G k} := by
        rw [Finset.image_union, closure_image_self hG hk]
      have hnotin : closure G k ∉ seen.image (closure G) := by
        intro hin
        rcases Finset.mem_image.mp hin with ⟨x, hx, hcx⟩
        have : k ∈ closure G x := hcx ▸ mem_self_closure G k
        exact hmem ((hinv x hx).2 this)
      rw [List.length_cons, ih (seen ∪ closure G k) hks2 hinv2, himg]
      rw [List.toFinset_cons, Finset.image_insert]
      have hsplit : ks.toFinset.image (closure G) \
            (seen.image (closure G) ∪ {closure G k}) =
          (ks.toFinset.image (closure G) \ seen.image (closure G)).erase
            (closure G k) := by
        ext y
        simp only [Finset.mem_sdiff, Finset.mem_union, Finset.mem_erase,
          Finset.mem_singleton]
        tauto
      rw [hsplit]
      rw [Finset.insert_sdiff_of_not_mem _ hnotin]
      have hins : insert (closure G k)
            (ks.toFinset.image (closure G) \ seen.image (closure G)) =
          insert (closure G k)
            ((ks.toFinset.image (closure G) \ seen.image (closure G)).erase
              (closure G k)) := by
        ext y
        simp only [Finset.mem_insert, Finset.mem_erase]
        constructor
        · rintro (rfl | hy)
          · exact Or.inl rfl
          · by_cases hyk : y = closure G k
            · exact Or.inl hyk
            · exact Or.inr ⟨hyk, hy⟩
        · rintro (rfl | ⟨_, hy⟩)
          · exact Or.inl rfl
          · exact Or.inr hy
      rw [hins, Finset.card_insert_of_not_mem (fun hc =>
        (Finset.mem_erase.mp hc).1 rfl)]

/-- `nx.number_connected_components` counts the distinct reachability
classes of the node set. -/
theorem number_connected_components_eq_card {G : Graph} (hG : Wf G) :
    number_connected_components G =
      ((nodeKeys G).toFinset.image (closure G)).card := by
  unfold number_connected_components connected_components
  rw [compsAux_length hG (nodeKeys G) ∅ (fun k hk => hk) (by simp)]
  simp

theorem compsAux_covers {G : Graph} :
    ∀ (ks : List Key) (seen : Finset Key) (k : Key), k ∈ ks →
      k ∈ seen ∨ ∃ C ∈ compsAux G ks seen, k ∈ C := by
  intro ks
  induction ks with
  | nil =>
    intro seen k hk
    exact absurd hk (List.not_mem_nil k)
  | cons j ks ih =>
    intro seen k hk
    by_cases hmem : j ∈ seen
    · simp only [compsAux, if_pos hmem]
      rcases List.mem_cons.mp hk with rfl | hk
      · exact Or.inl hmem
      · exact ih seen k hk
    · simp only [compsAux, if_neg hmem]
      rcases List.mem_cons.mp hk with rfl | hk
      · exact Or.inr ⟨closure G k, List.mem_cons_self _ _,
          mem_self_closure G k⟩
      · rcases ih (seen ∪ closure G j) k hk with hks | ⟨C, hC, hkC⟩
        · rcases Finset.mem_union.mp hks with hks | hks
          · exact Or.inl hks
          · exact Or.inr ⟨closure G j, List.mem_cons_self _ _, hks⟩
        · exact Or.inr ⟨C, List.mem_cons_of_mem _ hC, hkC⟩

theorem compsAux_mem {G : Graph} :
    ∀ (ks : List Key) (seen : Finset Key) (C : Finset Key),
      C ∈ compsAux G ks seen → ∃ k ∈ ks, C = closure G k := by
  intro ks
  induction ks with
  | nil =>
    intro seen C hC
    exact absurd hC (List.not_mem_nil C)
  | cons j ks ih =>
    intro seen C hC
    by_cases hmem : j ∈ seen
    · simp only [compsAux, if_pos hmem] at hC
      rcases ih _ _ hC with ⟨k, hk, hCk⟩
      exact ⟨k, List.mem_cons_of_mem j hk, hCk⟩
    · simp only [compsAux, if_neg hmem] at hC
      rcases List.mem_cons.mp hC with rfl | hC
      · exact ⟨j, List.mem_cons_self j ks, rfl⟩
      · rcases ih _ _ hC with ⟨k, hk, hCk⟩
        exact ⟨k, List.mem_cons_of_mem j hk, hCk⟩

/-- Two nodes share an entry of `connected_components` exactly when
they are connected. -/
theorem sameComponent_iff {G : Graph} (hG : Wf G) {a b : Key}
    (ha : a ∈ nodeKeys G) (_hb : b ∈ nodeKeys G) :
    (∃ C ∈ connected_components G, a ∈ C ∧ b ∈ C) ↔ Conn G a b := by
  constructor
  · rintro ⟨C, hC, haC, hbC⟩
    rcases compsAux_mem _ _ _ hC with ⟨k, hk, rfl⟩
    have hkn : k ∈ nodeKeys G := hk
    exact conn_trans (conn_symm ((mem_closure_iff hG hkn).mp haC))
      ((mem_closure_iff hG hkn).mp hbC)
  · intro hconn
    rcases compsAux_covers (nodeKeys G) ∅ a ha with habs | ⟨C, hC, haC⟩
    · exact absurd habs (Finset.not_mem_empty a)
    · rcases compsAux_mem _ _ _ hC with ⟨k, hk, rfl⟩
      have hkn : k ∈ nodeKeys G := hk
      refine ⟨closure G k, hC, haC, ?_⟩
      rw [mem_closure_iff hG hkn]
      exact conn_trans ((mem_closure_iff hG hkn).mp haC) hconn

/- ---------------------------------------------------------------
Bridges: removing a bridge edge splits exactly one component in two.
--------------------------------------------------------------- -/

theorem nodes_removeEdge (G : Graph) (u v : Key) :
    (removeEdge G u v).nodes = G.nodes :=
  rfl

theorem keys_removeEdge (G : Graph) (u v : Key) :
    nodeKeys (removeEdge G u v) = nodeKeys G :=
  rfl

theorem edges_removeEdge_subset (G : Graph) (u v : Key) :
    ∀ e ∈ (removeEdge G u v).edges, e ∈ G.edges := by
  intro e he
  exact (List.mem_filter.mp he).1

theorem wf_removeEdge {G : Graph} (hG : Wf G) (u v : Key) :
    Wf (removeEdge G u v) :=
  ⟨hG.nodupKeys,
    fun e he => hG.edgeFst e (edges_removeEdge_subset G u v e he),
    fun e he => hG.edgeSnd e (edges_removeEdge_subset G u v e he)⟩

theorem adj_removeEdge_cases {G : Graph} {u v c b : Key} (h : Adj G c b) :
    Adj (removeEdge G u v) c b ∨ (c = u ∧ b = v) ∨ (c = v ∧ b = u) := by
  rcases h with ⟨e, he, hor⟩
  by_cases hm : (e.1 = u ∧ e.2.1 = v) ∨ (e.1 = v ∧ e.2.1 = u)
  · rcases hor with ⟨h1, h2⟩ | ⟨h1, h2⟩ <;> rcases hm with ⟨m1, m2⟩ | ⟨m1, m2⟩
    · exact Or.inr (Or.inl ⟨h1 ▸ m1, h2 ▸ m2⟩)
    · exact Or.inr (Or.inr ⟨h1 ▸ m1, h2 ▸ m2⟩)
    · exact Or.inr (Or.inr ⟨h2 ▸ m2, h1 ▸ m1⟩)
    · exact Or.inr (Or.inl ⟨h2 ▸ m2, h1 ▸ m1⟩)
  · refine Or.inl ⟨e, ?_, hor⟩
    simp only [removeEdge, List.mem_filter, he, true_and, decide_eq_true_eq]
    exact hm

theorem conn_decompose {G : Graph} {u v a b : Key} (h : Conn G a b) :
    Conn (removeEdge G u v) a b ∨
      (Conn (removeEdge G u v) a u ∧ Conn (removeEdge G u v) v b) ∨
      (Conn (removeEdge G u v) a v ∧ Conn (removeEdge G u v) u b) := by
  rcases h with ⟨n, hw⟩
  induction n generalizing b with
  | zero => exact Or.inl ((show a = b from hw) ▸ conn_refl _ a)
  | succ n ih =>
    rcases hw with ⟨c, hc, hadj⟩
    rcases adj_removeEdge_cases (u := u) (v := v) hadj with
      hadj2 | ⟨rfl, rfl⟩ | ⟨rfl, rfl⟩
    · rcases ih hc with h | ⟨h1, h2⟩ | ⟨h1, h2⟩
      · exact Or.inl (conn_trans h (conn_of_adj hadj2))
      · exact Or.inr (Or.inl ⟨h1, conn_trans h2 (conn_of_adj hadj2)⟩)
      · exact Or.inr (Or.inr ⟨h1, conn_trans h2 (conn_of_adj hadj2)⟩)
    · rcases ih hc with h | ⟨h1, _⟩ | ⟨h1, _⟩
      · exact Or.inr (Or.inl ⟨h, conn_refl _ _⟩)
      · exact Or.inr (Or.inl ⟨h1, conn_refl _ _⟩)
      · exact Or.inl h1
    · rcases ih hc with h | ⟨h1, _⟩ | ⟨h1, _⟩
      · exact Or.inr (Or.inr ⟨h, conn_refl _ _⟩)
      · exact Or.inl h1
      · exact Or.inr (Or.inr ⟨h1, conn_refl _ _⟩)

theorem conn_removeEdge_of_conn_u {G : Graph} {u v x : Key}
    (h : Conn G x u) :
    Conn (removeEdge G u v) x u ∨ Conn (removeEdge G u v) x v := by
  rcases conn_decompose (u := u) (v := v) h with h1 | ⟨h1, h2⟩ | ⟨h1, h2⟩
  · exact Or.inl h1
  · exact Or.inl h1
  · exact Or.inr h1

theorem conn_removeEdge_iff_of_not_conn_u {G : Graph} {u v x y : Key}
    (hadj : Adj G u v) (hx : ¬ Conn G x u) :
    Conn (removeEdge G u v) x y ↔ Conn G x y := by
  constructor
  · exact conn_of_edge_subset (edges_removeEdge_subset G u v)
  · intro h
    rcases conn_decompose (u := u) (v := v) h with h1 | ⟨h1, _⟩ | ⟨h1, _⟩
    · exact h1
    · exact absurd (conn_of_edge_subset (edges_removeEdge_subset G u v) h1) hx
    · have : Conn G x v :=
        conn_of_edge_subset (edges_removeEdge_subset G u v) h1
      exact absurd (conn_trans this (conn_symm (conn_of_adj hadj))) hx

theorem removeBridge_count {G : Graph} (hG : Wf G) {u v : Key}
    (hu : u ∈ nodeKeys G) (hv : v ∈ nodeKeys G) (hadj : Adj G u v)
    (hnc : ¬ Conn (removeEdge G u v) u v) :
    number_connected_components (removeEdge G u v) =
      number_connected_components G + 1 := by
  have hG2 : Wf (removeEdge G u v) := wf_removeEdge hG u v
  have hu2 : u ∈ nodeKeys (removeEdge G u v) := hu
  have hv2 : v ∈ nodeKeys (removeEdge G u v) := hv
  rw [number_connected_components_eq_card hG,
    number_connected_components_eq_card hG2, keys_removeEdge]
  set G2 := removeEdge G u v with hG2def
  set V := (nodeKeys G).toFinset with hVdef
  have hmemkeys : ∀ x, x ∈ V → x ∈ nodeKeys G := fun x hx =>
    List.mem_toFinset.mp hx
  -- a node not G-connected to u keeps its class unchanged
  have hfix : ∀ x, x ∈ nodeKeys G → ¬ Conn G x u →
      closure G2 x = closure G x := by
    intro x hxk hxu
    ext z
    rw [mem_closure_iff hG2 hxk, mem_closure_iff hG hxk]
    exact conn_removeEdge_iff_of_not_conn_u hadj hxu
  -- the split component
  have hcc : closure G2 u ≠ closure G2 v := by
    intro he
    exact hnc ((mem_closure_iff hG2 hu2).mp
      (he ▸ mem_self_closure G2 v))
  have hsplit : ∀ x, x ∈ nodeKeys G → Conn G x u →
      closure G2 x = closure G2 u ∨ closure G2 x = closure G2 v := by
    intro x hxk hxu
    rcases conn_removeEdge_of_conn_u hxu with h | h
    · exact Or.inl (closure_eq_of_conn hG2 hxk hu2 h)
    · exact Or.inr (closure_eq_of_conn hG2 hxk hv2 h)
  have hconn_uv : Conn G u v := conn_of_adj hadj
  -- the set identity between the two images
  have hset : V.image (closure G2) =
      insert (closure G2 u) (insert (closure G2 v)
        ((V.image (closure G)).erase (closure G u))) := by
    ext y
    simp only [Finset.mem_image, Finset.mem_insert, Finset.mem_erase]
    constructor
    · rintro ⟨x, hx, rfl⟩
      have hxk := hmemkeys x hx
      by_cases hxu : Conn G x u
      · rcases hsplit x hxk hxu with h | h
        · exact Or.inl h
        · exact Or.inr (Or.inl h)
      · refine Or.inr (Or.inr ⟨?_, ⟨x, hx, (hfix x hxk hxu).symm⟩⟩)
        rw [hfix x hxk hxu]
        intro he
        have : u ∈ closure G x := he ▸ mem_self_closure G u
        exact hxu ((mem_closure_iff hG hxk).mp this)
    · rintro (rfl | rfl | ⟨hyne, ⟨x, hx, rfl⟩⟩)
      · exact ⟨u, List.mem_toFinset.mpr hu, rfl⟩
      · exact ⟨v, List.mem_toFinset.mpr hv, rfl⟩
      · have hxk := hmemkeys x hx
        have hxu : ¬ Conn G x u := by
          intro hc
          exact hyne (closure_eq_of_conn hG hxk hu hc)
        exact ⟨x, hx, hfix x hxk hxu⟩
  -- the three inserted/erased classes are distinct
  have hnotin1 : closure G2 u ∉
      insert (closure G2 v) ((V.image (closure G)).erase (closure G u)) := by
    intro h
    rcases Finset.mem_insert.mp h with h | h
    · exact hcc h
    · rcases Finset.mem_erase.mp h with ⟨hyne, hmem⟩
      rcases Finset.mem_image.mp hmem with ⟨x, hx, hcx⟩
      have hxk := hmemkeys x hx
      have : u ∈ closure G x := hcx ▸ mem_self_closure G2 u
      exact hyne (hcx ▸ closure_eq_of_conn hG hxk hu
        ((mem_closure_iff hG hxk).mp this))
  have hnotin2 : closure G2 v ∉
      (V.image (closure G)).erase (closure G u) := by
    intro h
    rcases Finset.mem_erase.mp h with ⟨hyne, hmem⟩
    rcases Finset.mem_image.mp hmem with ⟨x, hx, hcx⟩
    have hxk := hmemkeys x hx
    have : v ∈ closure G x := hcx ▸ mem_self_closure G2 v
    have hxv : Conn G x v := (mem_closure_iff hG hxk).mp this
    exact hyne (hcx ▸ closure_eq_of_conn hG hxk hu
      (conn_trans hxv (conn_symm hconn_uv)))
  have hcmem : closure G u ∈ V.image (closure G) :=
    Finset.mem_image.mpr ⟨u, List.mem_toFinset.mpr hu, rfl⟩
  rw [hset, Finset.card_insert_of_not_mem hnotin1,
    Finset.card_insert_of_not_mem hnotin2,
    Finset.card_erase_of_mem hcmem]
  have : 1 ≤ (V.image (closure G)).card :=
    Finset.card_pos.mpr ⟨closure G u, hcmem⟩
  omega

/- ---------------------------------------------------------------
The stable non-increasing sort used by the ranking views.
--------------------------------------------------------------- -/

theorem mem_insertDescBy {α : Type} {f : α → Nat} {x z : α} :
    ∀ {l : List α}, z ∈ insertDescBy f x l ↔ z = x ∨ z ∈ l := by
  intro l
  induction l with
  | nil => simp [insertDescBy]
  | cons y ys ih =>
    unfold insertDescBy
    split
    · rw [List.mem_cons, ih, List.mem_cons]
      tauto
    · rw [List.mem_cons, List.mem_cons]

theorem sorted_insertDescBy {α : Type} {f : α → Nat} {x : α} :
    ∀ {l : List α}, l.Pairwise (fun a b => f b ≤ f a) →
      (insertDescBy f x l).Pairwise (fun a b => f b ≤ f a) := by
  intro l
  induction l with
  | nil =>
    intro _
    simp [insertDescBy]
  | cons y ys ih =>
    intro h
    rcases List.pairwise_cons.mp h with ⟨hy, hys⟩
    unfold insertDescBy
    split
    · rename_i hlt
      refine List.pairwise_cons.mpr ⟨?_, ih hys⟩
      intro z hz
      rcases mem_insertDescBy.mp hz with rfl | hz
      · exact Nat.le_of_lt hlt
      · exact hy z hz
    · rename_i hge
      refine List.pairwise_cons.mpr ⟨?_, h⟩
      intro z hz
      rcases List.mem_cons.mp hz with rfl | hz
      · exact Nat.le_of_not_lt hge
      · exact Nat.le_trans (hy z hz) (Nat.le_of_not_lt hge)

theorem sorted_sortDescBy {α : Type} (f : α → Nat) :
    ∀ (l : List α), (sortDescBy f l).Pairwise (fun a b => f b ≤ f a) := by
  intro l
  induction l with
  | nil => exact List.Pairwise.nil
  | cons x xs ih => exact sorted_insertDescBy ih

theorem filter_insertDescBy {α : Type} {f : α → Nat} {x : α} {d : Nat} :
    ∀ (l : List α),
      (insertDescBy f x l).filter (fun y => f y = d) =
        if f x = d then x :: l.filter (fun y => f y = d)
        else l.filter (fun y => f y = d) := by
  intro l
  induction l with
  | nil =>
    simp only [insertDescBy, List.filter]
    by_cases hx : f x = d
    · rw [if_pos hx]
      simp [hx]
    · rw [if_neg hx]
      simp [hx]
  | cons y ys ih =>
    unfold insertDescBy
    split
    · rename_i hlt
      by_cases hy : f y = d
      · rw [List.filter_cons_of_pos (by simpa using hy), ih]
        by_cases hx : f x = d
        · exact absurd hlt (by rw [hx, hy]; exact Nat.lt_irrefl d)
        · rw [if_neg hx, if_neg hx,
            List.filter_cons_of_pos (by simpa using hy)]
      · rw [List.filter_cons_of_neg (by simpa using hy), ih]
        by_cases hx : f x = d
        · rw [if_pos hx, if_pos hx,
            List.filter_cons_of_neg (by simpa using hy)]
        · rw [if_neg hx, if_neg hx,
            List.filter_cons_of_neg (by simpa using hy)]
    · by_cases hx : f x = d
      · rw [if_pos hx, List.filter_cons_of_pos (by simpa using hx)]
      · rw [if_neg hx, List.filter_cons_of_neg (by simpa using hx)]

theorem filter_sortDescBy {α : Type} {f : α → Nat} {d : Nat} :
    ∀ (l : List α),
      (sortDescBy f l).filter (fun y => f y = d) =
        l.filter (fun y => f y = d) := by
  intro l
  induction l with
  | nil => rfl
  | cons x xs ih =>
    show (insertDescBy f x (sortDescBy f xs)).filter (fun y => f y = d) = _
    rw [filter_insertDescBy]
    by_cases hx : f x = d
    · rw [if_pos hx, ih, List.filter_cons_of_pos (by simpa using hx)]
    · rw [if_neg hx, ih, List.filter_cons_of_neg (by simpa using hx)]

theorem take_filter_ne_zero {α : Type} {f : α → Nat} :
    ∀ (l : List α), l.Pairwise (fun a b => f b ≤ f a) →
      ∀ n, (l.take n).filter (fun y => f y ≠ 0) =
        (l.filter (fun y => f y ≠ 0)).take n := by
  intro l
  induction l with
  | nil => intro _ n; simp
  | cons x xs ih =>
    intro h n
    rcases List.pairwise_cons.mp h with ⟨hx, hxs⟩
    match n with
    | 0 => simp
    | n + 1 =>
      rw [List.take_succ_cons]
      by_cases hx0 : f x = 0
      · have hall : ∀ y ∈ x :: xs, f y = 0 := by
          intro y hy
          rcases List.mem_cons.mp hy with rfl | hy
          · exact hx0
          · exact Nat.le_zero.mp (hx0 ▸ hx y hy)
        have h1 : (x :: xs.take n).filter (fun y => f y ≠ 0) = [] := by
          apply List.filter_eq_nil_iff.mpr
          intro y hy
          rcases List.mem_cons.mp hy with rfl | hy
          · simp [hx0]
          · simp [hall y (List.mem_cons_of_mem x (List.mem_of_mem_take hy))]
        have h2 : (x :: xs).filter (fun y => f y ≠ 0) = [] := by
          apply List.filter_eq_nil_iff.mpr
          intro y hy
          simp [hall y hy]
        rw [h1, h2]
        simp
      · rw [List.filter_cons_of_pos (by simpa using hx0),
          List.filter_cons_of_pos (by simpa using hx0), List.take_succ_cons,
          ih hxs n]

/- ---------------------------------------------------------------
Helper lemmas about the `paths` command.
--------------------------------------------------------------- -/

theorem paths_eq_dist {G : Graph} {a b : Key} (ha : hasNode G a = true)
    (hb : hasNode G b = true) :
    paths G a b =
      match dist G a b with
      | none => PathsResult.noPath
      | some d => PathsResult.found d := by
  unfold paths
  rw [if_neg (by simp [ha]), if_neg (by simp [hb])]

theorem paths_noPath_iff {G : Graph} {a b : Key} (ha : hasNode G a = true)
    (hb : hasNode G b = true) :
    paths G a b = PathsResult.noPath ↔ dist G a b = none := by
  rw [paths_eq_dist ha hb]
  cases h : dist G a b <;> simp

theorem conn_of_dist_some {G : Graph} {a b : Key} {d : Nat}
    (h : dist G a b = some d) : Conn G a b := by
  unfold dist at h
  have hp := List.find?_some h
  rcases mem_reachN.mp (of_decide_eq_true hp) with ⟨k, _, hw⟩
  exact ⟨k, hw⟩

/- ---------------------------------------------------------------
The claims.
--------------------------------------------------------------- -/

/-- Claim C1 (code_bug evaluation): contrary to the stated invariant,
the evidence→source loop of `_build_graph` has no `has_node` guard, so
an evidence row with a dangling `source_id` (here `source_id = 5` with
no sources at all) does NOT have its edge dropped: the edge is stored
and a phantom `source:5` node with an empty attribute dict is
auto-created. -/
theorem c1_dangling_evidence_edge_added :
    (_build_graph danglingEvidenceRecords).edges =
      [((NodeKind.evidence, 1), (NodeKind.source, 5), sourcedFromEdge)] ∧
    nodeKeys (_build_graph danglingEvidenceRecords) =
      [(NodeKind.evidence, 1), (NodeKind.source, 5)] ∧
    (_build_graph danglingEvidenceRecords).nodes.getLast? =
      some ((NodeKind.source, 5), emptyNodeData) := by
  decide

/-- Claim C2 (counterexample): with a relationship row between entities
1 and 2 and an alias link on the same pair, the built graph's single
stored edge carries the later kind (`alias`) but RETAINS the earlier
relationship attributes (`relationship_type`, `strength`, `confirmed`)
— refuting "with nothing retained from the earlier edge". -/
theorem c2_counterexample :
    lookupEdge (_build_graph aliasOverwriteRecords)
        (NodeKind.entity, 1) (NodeKind.entity, 2) =
      some { edge_type := some "alias".data
             relationship_type := some "knows".data
             strength := some "0.9".data
             confirmed := some true } := by
  decide

/-- Claim C2 (amended): the graph is simple and undirected — every
built graph stores at most one edge per unordered node pair — and a
second `add_edge` on the same pair overwrites by dict-update: the
attributes the later edge supplies (its `edge_type` in particular)
overwrite the earlier ones, while earlier attributes the later edge
does not supply are retained. -/
theorem c2_simple_and_overwrite :
    (∀ r : Records, SimpleEdges (_build_graph r)) ∧
    (∀ (G : Graph) (a b : Key) (d0 d1 : EdgeData),
      lookupEdge G a b = some d0 →
      lookupEdge (add_edge G a b d1) a b = some (updEdgeData d0 d1)) :=
  ⟨simple_build, fun _ _ _ _ d1 h => lookupEdge_add_edge d1 h⟩

/-- Witness for C2's amended claim at concrete inputs. -/
theorem c2_simple_and_overwrite_witness :
    SimpleEdges (_build_graph demoRecords) ∧
    lookupEdge (add_edge (_build_graph relOnlyRecords)
        (NodeKind.entity, 1) (NodeKind.entity, 2) aliasEdge)
        (NodeKind.entity, 1) (NodeKind.entity, 2) =
      some (updEdgeData
        { edge_type := some "relationship".data
          relationship_type := some "knows".data
          strength := some "0.9".data
          confirmed := some true } aliasEdge) :=
  ⟨c2_simple_and_overwrite.1 demoRecords,
    c2_simple_and_overwrite.2 _ _ _ _ _ (by decide)⟩

/-- Claim C3: on the spec's end-to-end record set the built graph has
9 nodes, 7 edges, 3 connected components of sizes 6, 2 and 1, exactly
one isolated node (the suspect pool), a 1-hop shortest path from
entity:1 to entity:2 and a 2-hop shortest path from evidence:1 to
event:1. -/
theorem c3_end_to_end_scenario :
    demoG.nodes.length = 9 ∧
    demoG.edges.length = 7 ∧
    number_connected_components demoG = 3 ∧
    (sortDescBy (fun c => c.card) (connected_components demoG)).map
      (fun c => c.card) = [6, 2, 1] ∧
    isolates demoG = [(NodeKind.suspect_pool, 1)] ∧
    paths demoG (NodeKind.entity, 1) (NodeKind.entity, 2) =
      PathsResult.found 1 ∧
    paths demoG (NodeKind.evidence, 1) (NodeKind.event, 1) =
      PathsResult.found 2 := by
  decide

/-- Claim C4: the shortest-path query fails with NotFound (mapped to
exit status 1) iff an endpoint key is absent from the built graph, and
when both endpoints exist but are not connected it returns the distinct
non-error `noPath` outcome (exit status 0). -/
theorem c4_notFound_iff_missing_endpoint (r : Records) (a b : Key) :
    (paths (_build_graph r) a b = PathsResult.notFound ↔
      (hasNode (_build_graph r) a = false ∨
        hasNode (_build_graph r) b = false)) ∧
    (pathsExitCode (paths (_build_graph r) a b) ≠ 0 ↔
      paths (_build_graph r) a b = PathsResult.notFound) ∧
    (hasNode (_build_graph r) a = true → hasNode (_build_graph r) b = true →
      ¬ Conn (_build_graph r) a b →
      paths (_build_graph r) a b = PathsResult.noPath ∧
      pathsExitCode (paths (_build_graph r) a b) = 0) := by
  have hG := wf_build r
  by_cases hA : hasNode (_build_graph r) a = true
  · by_cases hB : hasNode (_build_graph r) b = true
    · rw [paths_eq_dist hA hB]
      cases hd : dist (_build_graph r) a b
      · refine ⟨by simp [hA, hB], by simp [pathsExitCode], ?_⟩
        intro _ _ _
        exact ⟨rfl, rfl⟩
      · refine ⟨by simp [hA, hB], by simp [pathsExitCode], ?_⟩
        intro _ _ hnc
        exact absurd (conn_of_dist_some hd) hnc
    · have hp : paths (_build_graph r) a b = PathsResult.notFound := by
        unfold paths
        rw [if_neg (by simp [hA])]
        rw [if_pos (by simp [hB])]
      rw [hp]
      refine ⟨?_, by simp [pathsExitCode], ?_⟩
      · simp [Bool.not_eq_true] at hB
        simp [hB]
      · intro _ hB2
        exact absurd hB2 hB
  · have hp : paths (_build_graph r) a b = PathsResult.notFound := by
      unfold paths
      rw [if_pos (by simp [hA])]
    rw [hp]
    refine ⟨?_, by simp [pathsExitCode], ?_⟩
    · simp [Bool.not_eq_true] at hA
      simp [hA]
    · intro hA2
      exact absurd hA2 hA

/-- Witness for C4 at a concrete unreachable pair of the scenario
graph (entity:1 and the isolated suspect pool). -/
theorem c4_witness :
    paths demoG (NodeKind.entity, 1) (NodeKind.suspect_pool, 1) =
      PathsResult.noPath ∧
    pathsExitCode (paths demoG (NodeKind.entity, 1)
      (NodeKind.suspect_pool, 1)) = 0 := by
  refine (c4_notFound_iff_missing_endpoint demoRecords
    (NodeKind.entity, 1) (NodeKind.suspect_pool, 1)).2.2
    (by decide) (by decide) ?_
  intro hc
  have hb := (connB_iff (wf_build demoRecords)
    (a := (NodeKind.entity, 1)) (hasNode_iff.mp (by decide))).mpr hc
  revert hb
  decide

/-- Claim C5: for two node keys of a built graph the shortest-path
outcome is symmetric (in particular hop counts agree), and the query
answers `noPath` exactly when the two keys lie in different connected
components. -/
theorem c5_symmetry_and_components (r : Records) (a b : Key)
    (ha : hasNode (_build_graph r) a = true)
    (hb : hasNode (_build_graph r) b = true) :
    paths (_build_graph r) a b = paths (_build_graph r) b a ∧
    (paths (_build_graph r) a b = PathsResult.noPath ↔
      ¬ ∃ C ∈ connected_components (_build_graph r), a ∈ C ∧ b ∈ C) := by
  have hG := wf_build r
  constructor
  · rw [paths_eq_dist ha hb, paths_eq_dist hb ha, dist_symm]
  · rw [paths_noPath_iff ha hb, dist_eq_none_iff,
      mem_closure_iff hG (hasNode_iff.mp ha),
      ← sameComponent_iff hG (hasNode_iff.mp ha) (hasNode_iff.mp hb)]

/-- Witness for C5: shortest-path symmetry between entity:1 and
entity:3 in the scenario graph. -/
theorem c5_witness :
    paths demoG (NodeKind.entity, 1) (NodeKind.entity, 3) =
      paths demoG (NodeKind.entity, 3) (NodeKind.entity, 1) :=
  (c5_symmetry_and_components demoRecords (NodeKind.entity, 1)
    (NodeKind.entity, 3) (by decide) (by decide)).1

/-- Claim C6: the ranking is sorted non-increasingly by degree, ties
preserve node construction order (stable sort), degree-0 nodes never
appear among the most-connected rows, and a degree-0 node is exactly an
entry of the `isolatedNodes` list that a non-empty summary reports. -/
theorem c6_ranking (r : Records) (t : Option Str) (d : Nat) (k : Key) :
    (rankedNodes (_build_graph r) t).Pairwise
      (fun p q => degree (_build_graph r) q.1 ≤ degree (_build_graph r) p.1) ∧
    ((rankedNodes (_build_graph r) none).filter
        (fun p => degree (_build_graph r) p.1 = d) =
      (_build_graph r).nodes.filter
        (fun p => degree (_build_graph r) p.1 = d)) ∧
    (∀ p ∈ mostConnectedRows (_build_graph r) t,
      degree (_build_graph r) p.1 ≠ 0) ∧
    (k ∈ nodeKeys (_build_graph r) →
      (degree (_build_graph r) k = 0 ↔ k ∈ isolates (_build_graph r))) ∧
    ((_build_graph r).nodes.length ≠ 0 →
      summary (_build_graph r) = SummaryResult.report
        (_build_graph r).nodes.length (_build_graph r).edges.length
        (number_connected_components (_build_graph r))
        (isolates (_build_graph r))) := by
  refine ⟨?_, ?_, ?_, ?_, ?_⟩
  · unfold rankedNodes
    cases t <;> exact sorted_sortDescBy _ _
  · unfold rankedNodes
    exact filter_sortDescBy _
  · intro p hp
    have := (List.mem_filter.mp hp).2
    simpa using this
  · intro hk
    unfold isolates
    rw [List.mem_filter]
    constructor
    · intro h0
      exact ⟨hk, by simpa using h0⟩
    · intro h
      simpa using h.2
  · intro h
    unfold summary
    rw [if_neg h]

/-- Witness for C6 on the scenario graph: the suspect pool has degree 0
and is listed among the isolated nodes, and the summary reports the
isolated-node list. -/
theorem c6_witness :
    (degree demoG (NodeKind.suspect_pool, 1) = 0 ↔
      (NodeKind.suspect_pool, 1) ∈ isolates demoG) ∧
    summary demoG = SummaryResult.report 9 7 3 (isolates demoG) := by
  constructor
  · exact (c6_ranking demoRecords none 1
      (NodeKind.suspect_pool, 1)).2.2.2.1 (by decide)
  · exact ((c6_ranking demoRecords none 1
      (NodeKind.suspect_pool, 1)).2.2.2.2 (by decide)).trans (by decide)

/-- Claim C7: removing an edge reported as a bridge by the
critical-elements analysis increases the connected-component count by
exactly one. -/
theorem c7_bridge_split (r : Records) (u v : Key)
    (h : (u, v) ∈ bridgeEdges (_build_graph r)) :
    number_connected_components (removeEdge (_build_graph r) u v) =
      number_connected_components (_build_graph r) + 1 := by
  have hG := wf_build r
  unfold bridgeEdges at h
  rw [List.mem_map] at h
  rcases h with ⟨e, he, heq⟩
  rw [List.mem_filter] at he
  rcases he with ⟨hee, hbr⟩
  have h1 : e.1 = u := congrArg Prod.fst heq
  have h2 : e.2.1 = v := congrArg Prod.snd heq
  have hadj : Adj (_build_graph r) u v := ⟨e, hee, Or.inl ⟨h1, h2⟩⟩
  have hu : u ∈ nodeKeys (_build_graph r) := h1 ▸ hG.edgeFst e hee
  have hv : v ∈ nodeKeys (_build_graph r) := h2 ▸ hG.edgeSnd e hee
  have hbr2 : isBridge (_build_graph r) u v = true := h1 ▸ h2 ▸ hbr
  have hnb : ¬ (connB (removeEdge (_build_graph r) u v) u v = true) := by
    unfold isBridge at hbr2
    exact of_decide_eq_true hbr2
  have hnc : ¬ Conn (removeEdge (_build_graph r) u v) u v := by
    intro hc
    exact hnb ((connB_iff (wf_removeEdge hG u v) (a := u) hu).mpr hc)
  exact removeBridge_count hG hu hv hadj hnc

/-- Witness for C7: removing the reported bridge between evidence:1 and
source:1 in the scenario graph raises the component count from 3
to 4. -/
theorem c7_witness :
    number_connected_components
        (removeEdge demoG (NodeKind.evidence, 1) (NodeKind.source, 1)) =
      number_connected_components demoG + 1 :=
  c7_bridge_split demoRecords (NodeKind.evidence, 1) (NodeKind.source, 1)
    (by decide)

/-- Claim C8 (counterexample): on the zero-node graph built from an
empty record source, the shortest-path analytic query does not return a
"nothing to analyze" result — it fails with the NotFound error branch
and exit status 1. -/
theorem c8_counterexample :
    (_build_graph emptyRecords).nodes.length = 0 ∧
    paths (_build_graph emptyRecords) (NodeKind.entity, 1)
      (NodeKind.entity, 2) = PathsResult.notFound ∧
    pathsExitCode (paths (_build_graph emptyRecords) (NodeKind.entity, 1)
      (NodeKind.entity, 2)) = 1 := by
  decide

/-- Claim C8 (amended): on a zero-node graph every whole-graph analytic
query (summary, connections, clusters, inspect, visualize) returns its
explicit empty "nothing to analyze" result and critical-element
analysis reports "not applicable", while the shortest-path query
instead fails NotFound because its endpoint keys are absent; for any
graph with fewer than three nodes the critical-element analysis
reports "not applicable" rather than failing. -/
theorem c8_empty_states (r : Records) (node focus : Option Key)
    (t : Option Str) :
    ((_build_graph r).nodes.length = 0 →
      summary (_build_graph r) = SummaryResult.empty ∧
      connections (_build_graph r) node t = ConnectionsResult.empty ∧
      clusters (_build_graph r) = ClustersResult.empty ∧
      inspect (_build_graph r) focus = InspectResult.empty ∧
      visualize (_build_graph r) = VisualizeResult.empty ∧
      bridges (_build_graph r) = BridgesResult.notApplicable) ∧
    ((_build_graph r).nodes.length < 3 →
      bridges (_build_graph r) = BridgesResult.notApplicable) := by
  constructor
  · intro h0
    refine ⟨?_, ?_, ?_, ?_, ?_, ?_⟩
    · unfold summary
      rw [if_pos h0]
    · unfold connections
      rw [if_pos h0]
    · unfold clusters
      rw [if_pos h0]
    · unfold inspect
      rw [if_pos h0]
    · unfold visualize
      rw [if_pos h0]
    · unfold bridges
      rw [if_pos (by omega)]
  · intro h3
    unfold bridges
    rw [if_pos h3]

/-- Witness for C8's amended claim on the empty record source. -/
theorem c8_witness :
    summary (_build_graph emptyRecords) = SummaryResult.empty ∧
    bridges (_build_graph emptyRecords) = BridgesResult.notApplicable := by
  have h := (c8_empty_states emptyRecords none none none).1 (by decide)
  exact ⟨h.1, h.2.2.2.2.2⟩

/-- Claim C9 (counterexample): `_truncate` on a 61-character label with
budget 60 returns a 63-character string — the truncated output exceeds
the stated budget, refuting "the truncated output never exceeds the
stated budget". -/
theorem c9_counterexample :
    ¬ ((_truncate (List.replicate 61 'a') 60).length ≤ 60) := by
  decide

/-- Claim C9 (amended): `_truncate` keeps a label unchanged when its
length is within the budget, and otherwise outputs the first `budget`
characters with the ellipsis marker appended — a string of length
budget + 3, exceeding the budget by the 3-character marker. -/
theorem c9_truncate (s : Str) (n : Nat) :
    (s.length ≤ n → _truncate s n = s) ∧
    (n < s.length →
      _truncate s n = s.take n ++ "...".data ∧
      (_truncate s n).length = n + 3) := by
  constructor
  · intro h
    unfold _truncate
    rw [if_neg (Nat.not_lt.mpr h)]
  · intro h
    unfold _truncate
    rw [if_pos h]
    refine ⟨rfl, ?_⟩
    rw [List.length_append, List.length_take,
      Nat.min_eq_left (Nat.le_of_lt h)]
    rfl

/-- Witness for C9 at both branches: a short label is unchanged, a
61-character label truncated to budget 60 has length 63. -/
theorem c9_witness :
    _truncate "ab".data 60 = "ab".data ∧
    (_truncate (List.replicate 61 'a') 60).length = 63 :=
  ⟨(c9_truncate "ab".data 60).1 (by decide),
    ((c9_truncate (List.replicate 61 'a') 60).2 (by decide)).2⟩

/-- Claim C10 (counterexample): a graph with 22 positive-degree nodes
and one isolated node — the most-connected view still displays exactly
20 rows, not fewer, because the degree-descending order puts the
isolated node after every positive-degree node. -/
theorem c10_counterexample :
    20 ≤ ((rankedNodes (_build_graph manyEntitiesRecords) none).filter
      (fun p => degree (_build_graph manyEntitiesRecords) p.1 ≠ 0)).length ∧
    (isolates (_build_graph manyEntitiesRecords)).length = 1 ∧
    (mostConnectedRows (_build_graph manyEntitiesRecords) none).length = 20 := by
  decide

/-- Claim C10 (amended): the most-connected view does truncate to the
top 20 entries before skipping degree-0 rows, but because the order is
degree-descending this equals excluding degree-0 nodes first and then
truncating; whenever at least 20 positive-degree candidates exist the
view displays exactly 20 of them, never fewer. -/
theorem c10_truncate_before_filter (r : Records) (t : Option Str) :
    mostConnectedRows (_build_graph r) t =
      ((rankedNodes (_build_graph r) t).filter
        (fun p => degree (_build_graph r) p.1 ≠ 0)).take 20 ∧
    (20 ≤ ((rankedNodes (_build_graph r) t).filter
        (fun p => degree (_build_graph r) p.1 ≠ 0)).length →
      (mostConnectedRows (_build_graph r) t).length = 20) := by
  have hsorted : (rankedNodes (_build_graph r) t).Pairwise
      (fun p q => degree (_build_graph r) q.1 ≤ degree (_build_graph r) p.1) := by
    unfold rankedNodes
    cases t <;> exact sorted_sortDescBy _ _
  have heq : mostConnectedRows (_build_graph r) t =
      ((rankedNodes (_build_graph r) t).filter
        (fun p => degree (_build_graph r) p.1 ≠ 0)).take 20 :=
    take_filter_ne_zero _ hsorted 20
  refine ⟨heq, ?_⟩
  intro h20
  rw [heq, List.length_take, Nat.min_eq_left h20]

/-- Witness for C10's amended claim on the 22-positive-node graph. -/
theorem c10_witness :
    (mostConnectedRows (_build_graph manyEntitiesRecords) none).length = 20 :=
  (c10_truncate_before_filter manyEntitiesRecords none).2 (by decide)

end DeepTrace
